import Mathlib

/-!
Verification of the ledger-file parser and serializer (rust-ledger-parser).

The development shallowly embeds the Rust sources:
  * `src/parser.rs`    — the nom-based grammar parser (current revision),
  * `src/serializer.rs`— the configurable serializer,
  * `src/model.rs`     — the document model as constructed by the parser,
  * `src/ast/model.rs`, `src/simple/from_ast.rs` — the older ast→simple
    conversion layer.

Machine text is modelled as `List Char`; a nom parser `Fn(&str) -> IResult`
becomes a function `List Char → Option (List Char × α)` returning the
remaining input and the parsed value, `none` standing for a parse error.
External collaborator crates are modelled at the abstraction level the spec
assigns them: `rust_decimal::Decimal` as an exact decimal (integer mantissa
plus scale), `chrono` dates as records validated by real calendar rules.
-/

namespace LedgerSpec

/-! ## External collaborator models: decimals and dates -/

/-- Model of `rust_decimal::Decimal`: an exact signed decimal, `mantissa / 10^scale`.
The spec treats the decimal crate as an opaque exact-decimal collaborator, so the
96-bit mantissa bound of the concrete crate is not modelled. -/
structure Decimal where
  mantissa : Int
  scale : Nat
deriving DecidableEq, Repr

/-- Numeric value of a digit list, most significant first. -/
def digitsToNat (l : List Char) : Nat :=
  l.foldl (fun acc c => acc * 10 + (c.toNat - 48)) 0

/-- Building the final decimal from the collected digits: fails when no digit
was collected, otherwise the digit value with the sign applied and the given
scale. -/
def decMk (neg : Bool) (allDigits : List Char) (sc : Nat) : Option Decimal :=
  if allDigits.isEmpty then none
  else some ⟨if neg then -(digitsToNat allDigits : Int) else (digitsToNat allDigits : Int), sc⟩

/-- The digit part of `Decimal::from_str` after the optional sign: a run of
digits, then an optional point followed by a nonempty run of digits; at least
one digit must be present and the whole string must be consumed.  The scale is
the number of fractional digits. -/
def decFromStrCore (neg : Bool) (s1 : List Char) : Option Decimal :=
  match s1.drop (s1.takeWhile Char.isDigit).length with
  | [] => decMk neg (s1.takeWhile Char.isDigit) 0
  | '.' :: r2 =>
    if (r2.takeWhile Char.isDigit).isEmpty then none
    else if (r2.drop (r2.takeWhile Char.isDigit).length).isEmpty then
      decMk neg (s1.takeWhile Char.isDigit ++ r2.takeWhile Char.isDigit)
        (r2.takeWhile Char.isDigit).length
    else none
  | _ => none

/-- Model of `Decimal::from_str` on the digit strings the quantity parser
composes: an optional leading minus sign, then `decFromStrCore`. -/
def decFromStr (s : List Char) : Option Decimal :=
  match s with
  | '-' :: r => decFromStrCore true r
  | r => decFromStrCore false r

/-- Decimal digits of a natural number, most significant first (`0` prints `"0"`). -/
def natDigits (n : Nat) : List Char :=
  (Nat.toDigits 10 n)

/-- Model of `Decimal`'s `Display`: print the mantissa and insert the decimal
point `scale` digits from the right, left-padding with zeros; a negative
mantissa prints a leading minus sign.  `⟨120, 2⟩` prints `"1.20"`. -/
def decToString (d : Decimal) : String :=
  let sign := if d.mantissa < 0 then "-" else ""
  let digits := natDigits d.mantissa.natAbs
  if d.scale = 0 then sign ++ ⟨digits⟩
  else
    let digits := List.replicate (d.scale + 1 - digits.length) '0' ++ digits
    let intPart := digits.take (digits.length - d.scale)
    let fracPart := digits.drop (digits.length - d.scale)
    sign ++ ⟨intPart⟩ ++ "." ++ ⟨fracPart⟩

/-- Calendar date (model of `chrono::NaiveDate`); only constructed through
`fromYmdOpt`, which enforces real calendar validity. -/
structure Date where
  year : Nat
  month : Nat
  day : Nat
deriving DecidableEq, Repr

/-- Proleptic Gregorian leap-year rule. -/
def isLeapYear (y : Nat) : Bool :=
  y % 4 = 0 && (y % 100 ≠ 0 || y % 400 = 0)

/-- Number of days of month `m` of year `y` in the proleptic Gregorian calendar. -/
def daysInMonth (y m : Nat) : Nat :=
  if m = 2 then (if isLeapYear y then 29 else 28)
  else if m = 4 || m = 6 || m = 9 || m = 11 then 30
  else 31

/-- Model of `NaiveDate::from_ymd_opt`: succeeds exactly on real calendar dates. -/
def fromYmdOpt (y m d : Nat) : Option Date :=
  if 1 ≤ m ∧ m ≤ 12 ∧ 1 ≤ d ∧ d ≤ daysInMonth y m then some ⟨y, m, d⟩ else none

/-- Calendar date and time of day (model of `chrono::NaiveDateTime`). -/
structure DateTime where
  date : Date
  hour : Nat
  minute : Nat
  second : Nat
deriving DecidableEq, Repr

/-- Model of `NaiveDate::and_hms_opt`: succeeds exactly on valid wall-clock times. -/
def andHmsOpt (d : Date) (h mi s : Nat) : Option DateTime :=
  if h ≤ 23 ∧ mi ≤ 59 ∧ s ≤ 59 then some ⟨d, h, mi, s⟩ else none

/-! ## Parser combinator layer (model of the nom combinators used by parser.rs) -/

/-- A parser over character lists: `none` is a parse error, `some (rest, a)`
returns the unconsumed suffix and the parsed value. -/
abbrev P (α : Type) := List Char → Option (List Char × α)

/-- nom `map`. -/
def pMap (p : P α) (f : α → β) : P β := fun inp =>
  match p inp with
  | some (r, a) => some (r, f a)
  | none => none

/-- nom `map_res` / `map_opt`: apply a fallible function to the parsed value. -/
def pMapOpt (p : P α) (f : α → Option β) : P β := fun inp =>
  match p inp with
  | some (r, a) =>
    match f a with
    | some b => some (r, b)
    | none => none
  | none => none

/-- nom `alt` for two alternatives, tried in order. -/
def pAlt (p q : P α) : P α := fun inp =>
  match p inp with
  | some r => some r
  | none => q inp

/-- nom `opt`: never fails, returns `none` as the value on failure. -/
def pOpt (p : P α) : P (Option α) := fun inp =>
  match p inp with
  | some (r, a) => some (r, some a)
  | none => some (inp, none)

/-- nom `char`. -/
def pChar (c : Char) : P Char := fun inp =>
  match inp with
  | x :: rest => if x = c then some (rest, x) else none
  | [] => none

/-- nom `tag` for a literal string. -/
def pTag (s : List Char) : P (List Char) := fun inp =>
  if s.isPrefixOf inp then some (inp.drop s.length, s) else none

/-- nom `eof`. -/
def pEof : P Unit := fun inp =>
  if inp.isEmpty then some (inp, ()) else none

/-- nom `take_while` (`digit0`, `space0`, …): always succeeds. -/
def pTakeWhile (f : Char → Bool) : P (List Char) := fun inp =>
  let t := inp.takeWhile f
  some (inp.drop t.length, t)

/-- nom `take_while1`: the matched run must be nonempty. -/
def pTakeWhile1 (f : Char → Bool) : P (List Char) := fun inp =>
  if (inp.takeWhile f).isEmpty then none
  else some (inp.drop (inp.takeWhile f).length, inp.takeWhile f)

/-- nom `take_while_m_n`: greedily take at most `n` characters, fail below `m`. -/
def pTakeWhileMN (m n : Nat) (f : Char → Bool) : P (List Char) := fun inp =>
  if ((inp.takeWhile f).take n).length < m then none
  else some (inp.drop ((inp.takeWhile f).take n).length, (inp.takeWhile f).take n)

/-- nom `is_not`: a nonempty run of characters outside the given set. -/
def pIsNot (bad : List Char) : P (List Char) :=
  pTakeWhile1 (fun c => ¬ bad.contains c)

/-- nom `none_of`: a single character outside the given set. -/
def pNoneOf (bad : List Char) : P Char := fun inp =>
  match inp with
  | x :: rest => if bad.contains x then none else some (rest, x)
  | [] => none

/-- nom `one_of`-style alternative over single characters (used for comment markers). -/
def pOneOf (good : List Char) : P Char := fun inp =>
  match inp with
  | x :: rest => if good.contains x then some (rest, x) else none
  | [] => none

/-- nom `verify`. -/
def pVerify (p : P α) (f : α → Bool) : P α := fun inp =>
  match p inp with
  | some (r, a) => if f a then some (r, a) else none
  | none => none

/-- nom `value`. -/
def pValue (v : β) (p : P α) : P β := pMap p (fun _ => v)

/-- nom `not`: succeeds, consuming nothing, exactly when `p` fails. -/
def pNot (p : P α) : P Unit := fun inp =>
  match p inp with
  | some _ => none
  | none => some (inp, ())

/-- nom `peek`: run `p` without consuming input. -/
def pPeek (p : P α) : P α := fun inp =>
  match p inp with
  | some (_, a) => some (inp, a)
  | none => none

/-- nom `pair` / `tuple`: sequence two parsers. -/
def pPair (p : P α) (q : P β) : P (α × β) := fun inp =>
  match p inp with
  | some (r, a) =>
    match q r with
    | some (r2, b) => some (r2, (a, b))
    | none => none
  | none => none

/-- nom `preceded`. -/
def pPreceded (p : P α) (q : P β) : P β := pMap (pPair p q) Prod.snd

/-- nom `terminated`. -/
def pTerminated (p : P α) (q : P β) : P α := pMap (pPair p q) Prod.fst

/-- nom `delimited`. -/
def pDelimited (l : P α) (p : P β) (r : P γ) : P β :=
  pPreceded l (pTerminated p r)

/-- nom `separated_pair`. -/
def pSeparatedPair (p : P α) (sepP : P γ) (q : P β) : P (α × β) :=
  pPair (pTerminated p sepP) q

/-- nom `recognize`: return the consumed prefix instead of the value. -/
def pRecognize (p : P α) : P (List Char) := fun inp =>
  match p inp with
  | some (r, _) => some (r, inp.take (inp.length - r.length))
  | none => none

/-- Fuelled worker for nom `many0`: repeat `p`; an inner failure ends the loop,
an inner success that consumes nothing is an error (nom's infinite-loop guard). -/
def pManyAux (p : P α) : Nat → P (List α)
  | 0 => fun _ => none
  | fuel + 1 => fun inp =>
    match p inp with
    | none => some (inp, [])
    | some (r, a) =>
      if r.length = inp.length then none
      else
        match pManyAux p fuel r with
        | some (r2, as_) => some (r2, a :: as_)
        | none => none

/-- nom `many0`; the fuel `length + 1` is enough because every iteration consumes. -/
def pMany0 (p : P α) : P (List α) := fun inp =>
  pManyAux p (inp.length + 1) inp

/-- nom `many1`: like `many0` but the first application must succeed
(the first application is not subject to the progress check). -/
def pMany1 (p : P α) : P (List α) := fun inp =>
  match p inp with
  | none => none
  | some (r, a) =>
    match pManyAux p (r.length + 1) r with
    | some (r2, as_) => some (r2, a :: as_)
    | none => none

/-- nom `fold_many0`: same loop as `many0`, folding the results from the left
(the Rust closure takes the accumulator first). -/
def pFoldMany0 (p : P α) (init : β) (f : β → α → β) : P β := fun inp =>
  match pMany0 p inp with
  | some (r, as_) => some (r, as_.foldl f init)
  | none => none

/-- nom `fold_many1`. -/
def pFoldMany1 (p : P α) (init : β) (f : β → α → β) : P β := fun inp =>
  match pMany1 p inp with
  | some (r, as_) => some (r, as_.foldl f init)
  | none => none

/-- nom `separated_list1`; both uses in parser.rs have a separator that always
consumes a character, so failure of separator or element simply ends the list. -/
def pSepList1 (sepP : P γ) (p : P α) : P (List α) := fun inp =>
  match p inp with
  | none => none
  | some (r, a) =>
    match pManyAux (pPreceded sepP p) (r.length + 1) r with
    | some (r2, as_) => some (r2, a :: as_)
    | none => none

/-- nom `space0`: spaces and tabs. -/
def isNomSpace (c : Char) : Bool := c = ' ' || c = '\t'

def pSpace0 : P (List Char) := pTakeWhile isNomSpace

def pSpace1 : P (List Char) := pTakeWhile1 isNomSpace

/-- nom `digit0` / `digit1` (ASCII decimal digits). -/
def pDigit0 : P (List Char) := pTakeWhile Char.isDigit

def pDigit1 : P (List Char) := pTakeWhile1 Char.isDigit

/-- nom `alphanumeric1` (ASCII letters and digits). -/
def pAlphanumeric1 : P (List Char) := pTakeWhile1 Char.isAlphanum

/-- nom `line_ending`: `"\n"` or `"\r\n"`. -/
def pLineEnding : P (List Char) :=
  pAlt (pTag ['\n']) (pTag ['\r', '\n'])

/-- nom complete `not_line_ending`: everything before the line ending; a
carriage return not followed by a newline is an error. -/
def pNotLineEnding : P (List Char) := fun inp =>
  let t := inp.takeWhile (fun c => c ≠ '\r' && c ≠ '\n')
  let r := inp.drop t.length
  match r with
  | '\r' :: rest =>
    match rest with
    | '\n' :: _ => some (r, t)
    | _ => none
  | _ => some (r, t)

/-- Rust `str::trim_end` restricted to the whitespace that can occur in the
parsed fragments (space, tab, carriage return, newline). -/
def trimEndList (l : List Char) : List Char :=
  (l.reverse.dropWhile (fun c => c = ' ' || c = '\t' || c = '\r' || c = '\n')).reverse

/-- Rust `str::trim` (both ends), same whitespace set. -/
def trimList (l : List Char) : List Char :=
  trimEndList (l.dropWhile (fun c => c = ' ' || c = '\t' || c = '\r' || c = '\n'))

def charsToStr (l : List Char) : String := ⟨l⟩

/-! ## Document model (model.rs, as constructed by the current parser.rs) -/

inductive TransactionStatus
  | pending
  | cleared
deriving DecidableEq, Repr

inductive CommodityPosition
  | left
  | right
deriving DecidableEq, Repr

structure Commodity where
  name : String
  position : CommodityPosition
deriving DecidableEq, Repr

structure Amount where
  quantity : Decimal
  commodity : Commodity
deriving DecidableEq, Repr

inductive Price
  | unit : Amount → Price
  | total : Amount → Price
deriving DecidableEq, Repr

structure PostingAmount where
  amount : Amount
  lot_price : Option Price
  price : Option Price
deriving DecidableEq, Repr

inductive Balance
  | zero
  | amount : Amount → Balance
deriving DecidableEq, Repr

inductive Reality
  | real
  | balancedVirtual
  | unbalancedVirtual
deriving DecidableEq, Repr

/-- Tag values.  The `float` payload keeps the source text matched by the
floating-point recognizer: the spec treats numeric primitives as opaque
collaborators and no claim inspects a float value. -/
inductive TagValue
  | str : String → TagValue
  | integer : Int → TagValue
  | float : String → TagValue
  | date : Date → TagValue
deriving DecidableEq, Repr

structure Tag where
  name : String
  value : Option TagValue
deriving DecidableEq, Repr

structure PostingMetadata where
  date : Option Date
  effective_date : Option Date
  tags : List Tag
deriving DecidableEq, Repr

structure Posting where
  account : String
  reality : Reality
  amount : Option PostingAmount
  balance : Option Balance
  status : Option TransactionStatus
  comment : Option String
  metadata : PostingMetadata
deriving DecidableEq, Repr

structure Transaction where
  status : Option TransactionStatus
  code : Option String
  description : Option String
  comment : Option String
  date : Date
  effective_date : Option Date
  posting_metadata : PostingMetadata
  postings : List Posting
deriving DecidableEq, Repr

structure CommodityPrice where
  datetime : DateTime
  commodity_name : String
  amount : Amount
deriving DecidableEq, Repr

/-- Top-level document items (`LedgerItem`); `includeDirective` models the
Rust variant `Include`. -/
inductive LedgerItem
  | emptyLine
  | lineComment : String → LedgerItem
  | transaction : Transaction → LedgerItem
  | commodityPrice : CommodityPrice → LedgerItem
  | includeDirective : String → LedgerItem
deriving DecidableEq, Repr

structure Ledger where
  items : List LedgerItem
deriving DecidableEq, Repr

/-! ## The grammar parser (parser.rs) -/

/-- Characters excluded from unquoted commodity names
(`is_commodity_char`); `Char.ofNat 96`, `39`, `34` are backquote, apostrophe
and double quote. -/
def commodityExcluded : List Char :=
  ['0', '1', '2', '3', '4', '5', '6', '7', '8', '9',
   '{', '}', '[', ']', '(', ')', '~', Char.ofNat 96, '!', '@', '#', '%', '^',
   '&', '*', '-', '=', '+', '\\', Char.ofNat 39, Char.ofNat 34, ',', '.',
   '/', '?', ' ', ';', '\t', '\r', '\n']

def is_commodity_char (c : Char) : Bool := ¬ commodityExcluded.contains c

def pEofStr : P (List Char) := pMap pEof (fun _ => [])

def eol_or_eof : P (List Char) := pAlt pLineEnding pEofStr

/-- `number_n(n)`: exactly `n` decimal digits, as a number (`i32::from_str`
cannot fail or overflow on at most four digits). -/
def number_n (n : Nat) : P Nat :=
  pMap (pTakeWhileMN n n Char.isDigit) digitsToNat

def dateSep : P Char := pAlt (pChar '-') (pAlt (pChar '/') (pChar '.'))

def parse_date_internal : P (Nat × Nat × Nat) :=
  pPair (pTerminated (number_n 4) dateSep)
    (pPair (pTerminated (number_n 2) dateSep) (number_n 2))

def parse_time_internal : P (Nat × Nat × Nat) :=
  pPair (pTerminated (number_n 2) (pChar ':'))
    (pPair (pTerminated (number_n 2) (pChar ':')) (number_n 2))

def parse_datetime_internal : P ((Nat × Nat × Nat) × (Nat × Nat × Nat)) :=
  pSeparatedPair parse_date_internal pSpace1 parse_time_internal

def parse_date : P Date :=
  pMapOpt parse_date_internal (fun v => fromYmdOpt v.1 v.2.1 v.2.2)

def parse_datetime : P DateTime :=
  pMapOpt parse_datetime_internal (fun v =>
    match fromYmdOpt v.1.1 v.1.2.1 v.1.2.2 with
    | some date => andHmsOpt date v.2.1 v.2.2.1 v.2.2.2
    | none => none)

/-- The thousands-grouped integral alternative of `parse_quantity`:
one to three digits, then one or more comma-preceded groups of exactly three. -/
def quantity_grouped : P (List Char) :=
  pMap
    (pPair (pTakeWhileMN 1 3 Char.isDigit)
      (pMany1 (pPreceded (pChar ',') (pTakeWhileMN 3 3 Char.isDigit))))
    (fun v => v.1 ++ v.2.flatten)

/-- The optional fractional part of `parse_quantity`: a point and at least one
digit, kept as matched text. -/
def quantity_fraction : P (List Char) :=
  pRecognize (pPreceded (pChar '.') pDigit1)

/-- `parse_quantity`: optional minus sign, grouped-or-plain digit run, optional
fraction; the pieces are concatenated (dropping the grouping commas) and given
to `Decimal::from_str`. -/
def parse_quantity : P Decimal :=
  pMapOpt
    (pMap
      (pPair (pOpt (pTag ['-']))
        (pPair (pAlt quantity_grouped pDigit0) (pOpt quantity_fraction)))
      (fun v => v.1.getD [] ++ v.2.1 ++ v.2.2.getD []))
    decFromStr

def quoteChar : Char := Char.ofNat 34

def string_fragment : P (List Char) :=
  pAlt (pVerify (pIsNot ['\\', quoteChar]) (fun s => ¬ s.isEmpty))
    (pValue [quoteChar] (pTag ['\\', quoteChar]))

def string_between_quotes : P (List Char) :=
  pDelimited (pChar quoteChar)
    (pFoldMany1 string_fragment [] (fun acc fr => acc ++ fr))
    (pChar quoteChar)

def commodity_without_quotes : P (List Char) := pTakeWhile1 is_commodity_char

def parse_commodity : P String :=
  pMap (pAlt string_between_quotes commodity_without_quotes) charsToStr

/-- Model of `rust_decimal` multiplication (exact: mantissae multiply, scales
add); `parse_amount` only uses it to negate by `Decimal::new(-1, 0)`. -/
def Decimal.mul (a b : Decimal) : Decimal :=
  ⟨a.mantissa * b.mantissa, a.scale + b.scale⟩

/-- `parse_amount`: the commodity-first (`Left`) alternative is tried before
the quantity-first (`Right`) alternative. -/
def parse_amount : P Amount :=
  pAlt
    (pMap
      (pPair (pOpt (pTerminated (pChar '-') pSpace0))
        (pPair (pTerminated parse_commodity pSpace0) parse_quantity))
      (fun v =>
        { quantity := if v.1.isSome then Decimal.mul v.2.2 ⟨-1, 0⟩ else v.2.2,
          commodity := { name := v.2.1, position := CommodityPosition.left } }))
    (pMap (pPair (pTerminated parse_quantity pSpace0) parse_commodity)
      (fun v =>
        { quantity := v.1,
          commodity := { name := v.2, position := CommodityPosition.right } }))

def parse_lot_price : P Price :=
  pAlt
    (pMap
      (pDelimited (pPair (pTag ['{', '{']) pSpace0) parse_amount
        (pPair pSpace0 (pTag ['}', '}'])))
      Price.total)
    (pMap
      (pDelimited (pPair (pChar '{') pSpace0) parse_amount
        (pPair pSpace0 (pChar '}')))
      Price.unit)

def parse_price : P Price :=
  pAlt
    (pMap (pPreceded (pPair (pTag ['@', '@']) pSpace0) parse_amount) Price.total)
    (pMap (pPreceded (pPair (pChar '@') pSpace0) parse_amount) Price.unit)

def parse_posting_amount : P PostingAmount := fun inp =>
  match parse_amount inp with
  | none => none
  | some (inp, amount) =>
    match pOpt (pPreceded pSpace0 parse_lot_price) inp with
    | none => none
    | some (inp, lot_price) =>
      match pOpt (pPreceded pSpace0 parse_price) inp with
      | none => none
      | some (inp, price) =>
        some (inp, { amount := amount, lot_price := lot_price, price := price })

def parse_balance : P Balance :=
  pAlt (pMap parse_amount Balance.amount) (pValue Balance.zero (pChar '0'))

def parse_commodity_price : P CommodityPrice := fun inp =>
  match pChar 'P' inp with
  | none => none
  | some (inp, _) =>
    match pPreceded pSpace1 parse_datetime inp with
    | none => none
    | some (inp, datetime) =>
      match pPreceded pSpace1 parse_commodity inp with
      | none => none
      | some (inp, commodity_name) =>
        match pPreceded pSpace1 parse_amount inp with
        | none => none
        | some (inp, amount) =>
          match pPreceded pSpace0 (pOpt (pPreceded (pChar ';') pNotLineEnding)) inp with
          | none => none
          | some (inp, _) =>
            match eol_or_eof inp with
            | none => none
            | some (inp, _) =>
              some (inp, { datetime := datetime, commodity_name := commodity_name,
                           amount := amount })

/-- `parse_empty_line`; the second alternative must consume something, or the
top-level `many0` would reject it as non-progressing. -/
def parse_empty_line : P (List Char) :=
  pAlt (pTerminated pSpace0 pLineEnding) (pTerminated pSpace1 pEofStr)

def parse_global_line_comment : P (List Char) := fun inp =>
  match pDelimited pSpace0 (pOneOf [';', '#', '%', '|', '*']) pSpace0 inp with
  | none => none
  | some (inp, _) => pTerminated (pMap pNotLineEnding trimEndList) eol_or_eof inp

/-- The intermediate metadata record accumulated over a comment block
(struct `Metadata` in parser.rs; all fields default to empty). -/
structure Metadata where
  comment : Option String := none
  date : Option Date := none
  effective_date : Option Date := none
  tags : List Tag := []
deriving DecidableEq, Repr

def parse_metadata_date : P Metadata :=
  pMap
    (pPreceded pSpace0
      (pDelimited (pChar '[')
        (pPair (pOpt parse_date) (pOpt (pPreceded (pChar '=') parse_date)))
        (pChar ']')))
    (fun v => { date := v.1, effective_date := v.2 })

/-- Model of `i64::from_str` on an optional sign and a digit run. -/
def i64FromStr (s : List Char) : Option Int :=
  let (neg, ds) := match s with
    | '-' :: r => (true, r)
    | r => (false, r)
  let n := digitsToNat ds
  if neg then (if n ≤ 2 ^ 63 then some (-(n : Int)) else none)
  else (if n < 2 ^ 63 then some (n : Int) else none)

/-- Case-insensitive literal (for the special forms of the float recognizer). -/
def pTagCI (s : List Char) : P (List Char) := fun inp =>
  if (inp.take s.length).map Char.toLower = s then
    some (inp.drop s.length, inp.take s.length)
  else none

/-- Model of nom's `double` as a recognizer of the floating-point grammar:
optional sign, then digits with optional fraction or a leading point, then an
optional exponent; or the special words `inf`/`infinity`/`nan`.  The f64 value
itself is kept as the matched text. -/
def pDouble : P (List Char) :=
  pAlt
    (pRecognize
      (pPair (pOpt (pAlt (pChar '+') (pChar '-')))
        (pPair
          (pAlt (pRecognize (pPair pDigit1 (pOpt (pPair (pChar '.') pDigit0))))
            (pRecognize (pPair (pChar '.') pDigit1)))
          (pOpt (pRecognize
            (pPair (pOneOf ['e', 'E'])
              (pPair (pOpt (pAlt (pChar '+') (pChar '-'))) pDigit1)))))))
    (pRecognize
      (pPair (pOpt (pAlt (pChar '+') (pChar '-')))
        (pAlt (pTagCI ['i', 'n', 'f', 'i', 'n', 'i', 't', 'y'])
          (pAlt (pTagCI ['i', 'n', 'f']) (pTagCI ['n', 'a', 'n'])))))

/-- Does the matched float text denote NaN (rejected by `NotNan::new`)? -/
def isNanText (s : List Char) : Bool :=
  let noSign := match s with
    | '+' :: r => r
    | '-' :: r => r
    | r => r
  noSign.map Char.toLower = ['n', 'a', 'n']

def parse_tag_value : P TagValue :=
  pAlt
    (pMap
      (pMapOpt
        (pRecognize (pPair (pOpt (pChar '-')) (pTerminated pDigit1 (pNot (pChar '.')))))
        i64FromStr)
      TagValue.integer)
    (pAlt
      (pMap
        (pMapOpt pDouble (fun s => if isNanText s then none else some s))
        (fun s => TagValue.float (charsToStr s)))
      (pMap (pDelimited (pChar '[') parse_date (pChar ']')) TagValue.date))

def parse_metadata_tag_with_value : P Metadata :=
  pMap
    (pPreceded pSpace0
      (pAlt
        (pMap
          (pPair (pTerminated pAlphanumeric1 (pPair (pChar ':') pSpace1))
            (pMap pNotLineEnding trimEndList))
          (fun v => (v.1, TagValue.str (charsToStr v.2))))
        (pPair (pTerminated pAlphanumeric1 (pPair (pTag [':', ':']) pSpace1))
          parse_tag_value)))
    (fun v => { tags := [{ name := charsToStr v.1, value := some v.2 }] })

def parse_tags : P (List Tag) :=
  pDelimited (pChar ':')
    (pSepList1 (pChar ':')
      (pMap pAlphanumeric1 (fun n => ({ name := charsToStr n, value := none } : Tag))))
    (pChar ':')

/-- Rust's `Iterator::reduce` joining two optional comment pieces with one space. -/
def reduce_join_space : Option (List Char) → Option (List Char) → Option String
  | some a, some b => some (charsToStr (a ++ ' ' :: b))
  | some a, none => some (charsToStr a)
  | none, some b => some (charsToStr b)
  | none, none => none

def parse_comment_with_tags : P Metadata :=
  pMap
    (pPreceded pSpace0
      (pPair
        (pOpt (pMap
          (pRecognize (pMany1
            (pAlt (pNoneOf [':', '\r', '\n'])
              (pMap (pPair (pNot parse_tags) (pChar ':')) Prod.snd))))
          trimEndList))
        (pPair (pOpt parse_tags)
          (pOpt (pVerify (pMap pNotLineEnding trimList) (fun s => ¬ s.isEmpty))))))
    (fun v => { comment := reduce_join_space v.1 v.2.2, tags := (v.2.1).getD [] })

/-- Rust's `Iterator::reduce` joining two optional comment pieces with one
newline (the comment part of the metadata fold). -/
def reduce_join_newline : Option String → Option String → Option String
  | some a, some b => some (a ++ "\n" ++ b)
  | some a, none => some a
  | none, some b => some b
  | none, none => none

/-- `Option::or` with the Rust receiver first: `pick_later a b = b.or(a)`,
keeping `b` (the later value) whenever it is supplied. -/
def pick_later (a b : Option α) : Option α :=
  match b with
  | some x => some x
  | none => a

/-- The folding step of `parse_metadata_comments`: comments join with a
newline, a later date or effective date overrides an earlier one when present,
tag lists concatenate in order. -/
def metadata_combine (meta1 meta2 : Metadata) : Metadata :=
  { comment := reduce_join_newline meta1.comment meta2.comment,
    date := pick_later meta1.date meta2.date,
    effective_date := pick_later meta1.effective_date meta2.effective_date,
    tags := meta1.tags ++ meta2.tags }

/-- One line of a metadata comment block: optional blank-line prefixes, then
optional spaces, a semicolon, and one of the three line forms tried in order. -/
def parse_metadata_line : P Metadata :=
  pPreceded (pMany0 (pPair pSpace0 pLineEnding))
    (pPreceded (pPair pSpace0 (pChar ';'))
      (pAlt parse_metadata_date
        (pAlt parse_metadata_tag_with_value parse_comment_with_tags)))

def parse_metadata_comments : P Metadata :=
  pTerminated (pFoldMany0 parse_metadata_line {} metadata_combine)
    (pPreceded pSpace0 eol_or_eof)

def parse_include_file : P (List Char) := fun inp =>
  match pDelimited pSpace0 (pTag ['i', 'n', 'c', 'l', 'u', 'd', 'e']) pSpace1 inp with
  | none => none
  | some (inp, _) =>
    pVerify (pMap (pTerminated pNotLineEnding eol_or_eof) trimEndList)
      (fun s => ¬ s.isEmpty) inp

/-- A hard delimiter for the account-name scanner: tab, carriage return or
newline (the scanner's `c == '\t' || c == '\r' || c == '\n'`). -/
def isHardSep (c : Char) : Bool := c = '\t' || c = '\r' || c = '\n'

/-- UTF-8 byte width of a character (Rust `char::len_utf8`): code points up to
`0x7F` take one byte, up to `0x7FF` two, up to `0xFFFF` three, four beyond. -/
def utf8Width (c : Char) : Nat :=
  if c.toNat ≤ 0x7F then 1
  else if c.toNat ≤ 0x7FF then 2
  else if c.toNat ≤ 0xFFFF then 3
  else 4

/-- UTF-8 byte length of a text (Rust `str::len`). -/
def utf8Len : List Char → Nat
  | [] => 0
  | c :: rest => utf8Width c + utf8Len rest

/-- The character-by-character account-name scanner (`take_until_hard_separator`),
iterating `char_indices` of `input`: the current character is the head of
`c :: rest`, at character index `pos` and byte offset `bpos` (`char_indices`
yields byte offsets, and the end-of-text test `pos == input.len() - 1`
compares the byte offset against the byte length of `input` — `blen`, passed
in once since `input` never changes in the loop).  `ss` records whether the
previous character was a single unconsumed space.  The byte offsets `pos` and
`pos - 1` at which the source applies `split_at` fall on the boundaries of the
characters at indices `pos` and `pos - 1` respectively (`pos - 1` is only used
when the preceding character is a one-byte space), so the splits are taken at
those character indices.  Returning `none` models `Err(Incomplete)`. -/
def tuhsGo (input : List Char) (blen : Nat) : List Char → Nat → Nat → Bool →
    Option (List Char × List Char)
  | [], _, _, _ => none
  | c :: rest, pos, bpos, ss =>
    if isHardSep c then
      if 0 < bpos then
        if ss then some (input.drop (pos - 1), input.take (pos - 1))
        else some (input.drop pos, input.take pos)
      else none
    else if c = ' ' then
      if ss then some (input.drop (pos - 1), input.take (pos - 1))
      else tuhsGo input blen rest (pos + 1) (bpos + utf8Width c) true
    else
      if bpos = blen - 1 ∧ 0 < bpos then some ([], input)
      else tuhsGo input blen rest (pos + 1) (bpos + utf8Width c) false

def take_until_hard_separator : P (List Char) :=
  fun inp => tuhsGo inp (utf8Len inp) inp 0 0 false

/-- Rust `str::strip_prefix`/`strip_suffix` for one bracket pair. -/
def stripBrackets (l r : Char) (name : List Char) : Option (List Char) :=
  match name with
  | c :: rest =>
    if c = l then (if rest.getLast? = some r then some rest.dropLast else none)
    else none
  | [] => none

def parse_account : P (String × Reality) := fun inp =>
  match take_until_hard_separator inp with
  | none => none
  | some (inp2, name) =>
    match stripBrackets '[' ']' name with
    | some n2 => some (inp2, (charsToStr n2, Reality.balancedVirtual))
    | none =>
      match stripBrackets '(' ')' name with
      | some n2 => some (inp2, (charsToStr n2, Reality.unbalancedVirtual))
      | none => some (inp2, (charsToStr name, Reality.real))

def parse_transaction_status : P TransactionStatus :=
  pAlt (pValue TransactionStatus.cleared (pChar '*'))
    (pValue TransactionStatus.pending (pChar '!'))

def parse_posting : P Posting := fun inp =>
  match pSpace1 inp with
  | none => none
  | some (inp, _) =>
    match pOpt parse_transaction_status inp with
    | none => none
    | some (inp, status) =>
      match pSpace0 inp with
      | none => none
      | some (inp, _) =>
        match parse_account inp with
        | none => none
        | some (inp, (account, reality)) =>
          match pOpt (pPreceded pSpace0 parse_posting_amount) inp with
          | none => none
          | some (inp, amount) =>
            match pOpt (pPreceded (pDelimited pSpace0 (pChar '=') pSpace0)
                parse_balance) inp with
            | none => none
            | some (inp, balance) =>
              match parse_metadata_comments inp with
              | none => none
              | some (inp, md) =>
                some (inp,
                  { account := account, reality := reality, amount := amount,
                    balance := balance, status := status, comment := md.comment,
                    metadata :=
                      { date := md.date, effective_date := md.effective_date,
                        tags := md.tags } })

def parse_payee : P (List Char) :=
  pAlt (pTerminated take_until_hard_separator (pPeek (pPair pSpace1 (pChar ';'))))
    pNotLineEnding

def parse_transaction : P Transaction := fun inp =>
  match parse_date inp with
  | none => none
  | some (inp, date) =>
    match pOpt (pPreceded (pChar '=') parse_date) inp with
    | none => none
    | some (inp, effective_date) =>
      match pOpt (pPreceded pSpace1 parse_transaction_status) inp with
      | none => none
      | some (inp, status) =>
        match pOpt (pPreceded pSpace1
            (pDelimited (pChar '(') (pIsNot [')']) (pChar ')'))) inp with
        | none => none
        | some (inp, code) =>
          match pOpt (pPreceded pSpace1 parse_payee) inp with
          | none => none
          | some (inp, description) =>
            match parse_metadata_comments inp with
            | none => none
            | some (inp, md) =>
              match pMany1 parse_posting inp with
              | none => none
              | some (inp, postings) =>
                some (inp,
                  { comment := md.comment, date := date,
                    effective_date := effective_date, status := status,
                    code := code.map charsToStr,
                    description := description.map charsToStr,
                    posting_metadata :=
                      { date := md.date, effective_date := md.effective_date,
                        tags := md.tags },
                    postings := postings })

def parse_ledger_item : P LedgerItem :=
  pAlt (pValue LedgerItem.emptyLine parse_empty_line)
    (pAlt (pMap parse_global_line_comment (fun l => LedgerItem.lineComment (charsToStr l)))
      (pAlt (pMap parse_transaction LedgerItem.transaction)
        (pAlt (pMap parse_commodity_price LedgerItem.commodityPrice)
          (pMap parse_include_file (fun l => LedgerItem.includeDirective (charsToStr l))))))

def parse_ledger : P Ledger := fun inp =>
  match pMany0 parse_ledger_item inp with
  | none => none
  | some (inp, items) =>
    match pEof inp with
    | none => none
    | some (inp, _) => some (inp, { items := items })

/-! ## The serializer (serializer.rs) -/

structure SerializerSettings where
  indent : String
  eol : String
  transaction_date_format : String
  commodity_date_format : String
  posting_comments_sameline : Bool

/-- `SerializerSettings::default()`. -/
def default_settings : SerializerSettings :=
  { indent := "  ", eol := "\n",
    transaction_date_format := "%Y-%m-%d",
    commodity_date_format := "%Y-%m-%d %H:%M:%S",
    posting_comments_sameline := false }

/-- Zero-padded decimal rendering of a number. -/
def padNum (width n : Nat) : String :=
  let s := natDigits n
  charsToStr (List.replicate (width - s.length) '0' ++ s)

/-- Model of chrono's `format` for the strftime directives the serializer can
meet: `%Y` (year, four digits), `%m` `%d` `%H` `%M` `%S` (two digits), `%%`;
any other character is copied through. -/
def formatPattern (pat : List Char) (y mo d h mi s : Nat) : String :=
  match pat with
  | [] => ""
  | '%' :: c :: rest =>
    (if c = 'Y' then padNum 4 y
     else if c = 'm' then padNum 2 mo
     else if c = 'd' then padNum 2 d
     else if c = 'H' then padNum 2 h
     else if c = 'M' then padNum 2 mi
     else if c = 'S' then padNum 2 s
     else if c = '%' then "%"
     else charsToStr ['%', c]) ++ formatPattern rest y mo d h mi s
  | c :: rest => charsToStr [c] ++ formatPattern rest y mo d h mi s

def formatDate (pat : String) (d : Date) : String :=
  formatPattern pat.toList d.year d.month d.day 0 0 0

def formatDateTime (pat : String) (dt : DateTime) : String :=
  formatPattern pat.toList dt.date.year dt.date.month dt.date.day
    dt.hour dt.minute dt.second

def serialize_transaction_status : TransactionStatus → String
  | TransactionStatus.pending => "!"
  | TransactionStatus.cleared => "*"

/-- `impl Serializer for Amount`: `Left` writes the symbol immediately before
the quantity, `Right` writes the quantity, a space, then the symbol. -/
def serialize_amount (a : Amount) : String :=
  match a.commodity.position with
  | CommodityPosition.left => a.commodity.name ++ decToString a.quantity
  | CommodityPosition.right => decToString a.quantity ++ " " ++ a.commodity.name

def serialize_balance : Balance → String
  | Balance.zero => "0"
  | Balance.amount a => serialize_amount a

def serialize_posting_amount (pa : PostingAmount) : String :=
  serialize_amount pa.amount ++
  (match pa.lot_price with
   | some (Price.unit a) => " \x7b" ++ serialize_amount a ++ "\x7d"
   | some (Price.total a) => " \x7b\x7b" ++ serialize_amount a ++ "\x7d\x7d"
   | none => "") ++
  (match pa.price with
   | some (Price.unit a) => " @ " ++ serialize_amount a
   | some (Price.total a) => " @@ " ++ serialize_amount a
   | none => "")

/-- `impl Display for TagValue`; the `float` payload is its source text. -/
def tag_value_display : TagValue → String
  | TagValue.str v => v
  | TagValue.integer v => toString v
  | TagValue.float v => v
  | TagValue.date v => "[" ++ formatDate "%Y-%m-%d" v ++ "]"

def tag_entry (t : Tag) : String :=
  t.name ++ (match t.value with
             | some v => ": " ++ tag_value_display v
             | none => "")

def serialize_posting (s : SerializerSettings) (p : Posting) : String :=
  (match p.status with
   | some st => serialize_transaction_status st ++ " "
   | none => "") ++
  (match p.reality with
   | Reality.real => p.account
   | Reality.balancedVirtual => "[" ++ p.account ++ "]"
   | Reality.unbalancedVirtual => "(" ++ p.account ++ ")") ++
  (if p.amount.isSome || p.balance.isSome then s.indent else "") ++
  (match p.amount with
   | some a => serialize_posting_amount a
   | none => "") ++
  (match p.balance with
   | some b => " = " ++ serialize_balance b
   | none => "") ++
  (p.metadata.tags.foldl (fun acc t => acc ++ s.indent ++ "; " ++ tag_entry t) "") ++
  (match p.comment with
   | some c =>
     if ¬ c.contains '\n' && s.posting_comments_sameline then
       s.indent ++ "; " ++ c
     else
       (c.splitOn "\n").foldl (fun acc line => acc ++ s.eol ++ s.indent ++ "; " ++ line) ""
   | none => "")

def serialize_transaction (s : SerializerSettings) (t : Transaction) : String :=
  formatDate s.transaction_date_format t.date ++
  (match t.effective_date with
   | some ed => "=" ++ formatDate s.transaction_date_format ed
   | none => "") ++
  (match t.status with
   | some st => " " ++ serialize_transaction_status st
   | none => "") ++
  (match t.code with
   | some c => " (" ++ c ++ ")"
   | none => "") ++
  (match t.description with
   | some d => if d.isEmpty then "" else " " ++ d
   | none => "") ++
  (match t.comment with
   | some c =>
     (c.splitOn "\n").foldl (fun acc line => acc ++ s.eol ++ s.indent ++ "; " ++ line) ""
   | none => "") ++
  (t.posting_metadata.tags.foldl
    (fun acc tg => acc ++ s.eol ++ s.indent ++ "; " ++ tag_entry tg) "") ++
  (t.postings.foldl
    (fun acc p => acc ++ s.eol ++ s.indent ++ serialize_posting s p) "")

def serialize_commodity_price (s : SerializerSettings) (cp : CommodityPrice) : String :=
  "P " ++ formatDateTime s.commodity_date_format cp.datetime ++ " " ++
  cp.commodity_name ++ " " ++ serialize_amount cp.amount

/-- `impl Serializer for LedgerItem`: every item, after its body, is terminated
by the configured line ending. -/
def serialize_ledger_item (s : SerializerSettings) : LedgerItem → String
  | LedgerItem.emptyLine => s.eol
  | LedgerItem.lineComment c => "; " ++ c ++ s.eol
  | LedgerItem.transaction t => serialize_transaction s t ++ s.eol
  | LedgerItem.commodityPrice cp => serialize_commodity_price s cp ++ s.eol
  | LedgerItem.includeDirective f => "include " ++ f ++ s.eol

def serialize_ledger (s : SerializerSettings) (l : Ledger) : String :=
  l.items.foldl (fun acc item => acc ++ serialize_ledger_item s item) ""

/-! ## The older ast → simple conversion layer (ast/model.rs, simple/from_ast.rs) -/

/-- Posting of the ast revision (`ast/model.rs`): the amount is optional. -/
structure AstPosting where
  account : String
  amount : Option Amount
  balance : Option Balance
  status : Option TransactionStatus
  comment : Option String
deriving DecidableEq, Repr

structure AstTransaction where
  comment : Option String
  date : Date
  effective_date : Option Date
  status : Option TransactionStatus
  code : Option String
  description : String
  postings : List AstPosting
deriving DecidableEq, Repr

/-- Posting of the simplified model (`simple/model.rs`): the amount is required. -/
structure SimplePosting where
  account : String
  amount : Amount
  status : Option TransactionStatus
  comment : Option String
deriving DecidableEq, Repr

structure SimpleTransaction where
  comment : Option String
  date : Date
  effective_date : Option Date
  status : Option TransactionStatus
  code : Option String
  description : String
  postings : List SimplePosting
deriving DecidableEq, Repr

/-- `TryFrom<ast::Transaction> for simple::Transaction` (simple/from_ast.rs).
The Rust body maps each posting through `p.amount.unwrap()`; since the
`ConvertError` enum has no variants, the only failure path is the panic raised
by `unwrap` on a posting without an amount — modelled here as `none`. -/
def simple_transaction_try_from (t : AstTransaction) : Option SimpleTransaction :=
  match t.postings.mapM (fun p =>
    match p.amount with
    | some a =>
      some ({ account := p.account, amount := a, status := p.status,
              comment := p.comment } : SimplePosting)
    | none => none) with
  | some ps =>
    some { comment := t.comment, date := t.date,
           effective_date := t.effective_date, status := t.status,
           code := t.code, description := t.description, postings := ps }
  | none => none

/-! ## Concrete documents used by the claims -/

def empty_posting_metadata : PostingMetadata :=
  { date := none, effective_date := none, tags := [] }

/-- A posting carrying neither an amount nor a balance assertion. -/
def elided_posting (acct : String) : Posting :=
  { account := acct, reality := Reality.real, amount := none, balance := none,
    status := none, comment := none, metadata := empty_posting_metadata }

def two_elided_text : String := "2018-10-01 D\n A\n B\n"

def two_elided_ledger : Ledger :=
  { items := [LedgerItem.transaction
      { status := none, code := none, description := some "D", comment := none,
        date := ⟨2018, 10, 1⟩, effective_date := none,
        posting_metadata := empty_posting_metadata,
        postings := [elided_posting "A", elided_posting "B"] }] }

def one_elided_text : String := "2018-10-01 D\n A\n"

def one_elided_ledger : Ledger :=
  { items := [LedgerItem.transaction
      { status := none, code := none, description := some "D", comment := none,
        date := ⟨2018, 10, 1⟩, effective_date := none,
        posting_metadata := empty_posting_metadata,
        postings := [elided_posting "A"] }] }

def dollar_120_posting : Posting :=
  { account := "TEST:ABC 123", reality := Reality.real,
    amount := some
      { amount := { quantity := ⟨120, 2⟩,
                    commodity := { name := "$", position := CommodityPosition.left } },
        lot_price := none, price := none },
    balance := none, status := none, comment := none,
    metadata := empty_posting_metadata }

/-- The transaction scenario of the spec (§8). -/
def scenario_text : String :=
  "2018-10-01=2018-10-14 ! (123) Marek Ogarek\n TEST:ABC 123  $1.20\n TEST:ABC 123  $1.20\n"

def scenario_ledger : Ledger :=
  { items := [LedgerItem.transaction
      { status := some TransactionStatus.pending, code := some "123",
        description := some "Marek Ogarek", comment := none,
        date := ⟨2018, 10, 1⟩, effective_date := some ⟨2018, 10, 14⟩,
        posting_metadata := empty_posting_metadata,
        postings := [dollar_120_posting, dollar_120_posting] }] }

/-- A document whose posting amount has a quoted commodity name with a space. -/
def quoted_commodity_text : String := "2018-10-01 D\n A  \"AB C\"1.20\n"

def quoted_commodity_posting : Posting :=
  { account := "A", reality := Reality.real,
    amount := some
      { amount := { quantity := ⟨120, 2⟩,
                    commodity := { name := "AB C",
                                   position := CommodityPosition.left } },
        lot_price := none, price := none },
    balance := none, status := none, comment := none,
    metadata := empty_posting_metadata }

def quoted_commodity_ledger : Ledger :=
  { items := [LedgerItem.transaction
      { status := none, code := none, description := some "D", comment := none,
        date := ⟨2018, 10, 1⟩, effective_date := none,
        posting_metadata := empty_posting_metadata,
        postings := [quoted_commodity_posting] }] }

def ast_amount_120 : Amount :=
  { quantity := ⟨120, 2⟩,
    commodity := { name := "$", position := CommodityPosition.left } }

/-- An ast transaction whose second posting is elided (no amount). -/
def elided_ast_transaction : AstTransaction :=
  { comment := none, date := ⟨2018, 10, 1⟩, effective_date := none,
    status := none, code := none, description := "Desc",
    postings :=
      [{ account := "A", amount := some ast_amount_120, balance := none,
         status := none, comment := none },
       { account := "B", amount := none, balance := none,
         status := none, comment := none }] }

/-- The same ast transaction with the second posting's amount supplied. -/
def full_ast_transaction : AstTransaction :=
  { comment := none, date := ⟨2018, 10, 1⟩, effective_date := none,
    status := none, code := none, description := "Desc",
    postings :=
      [{ account := "A", amount := some ast_amount_120, balance := none,
         status := none, comment := none },
       { account := "B", amount := some ast_amount_120, balance := none,
         status := none, comment := none }] }

def scenario_commodity_price : CommodityPrice :=
  { datetime := { date := ⟨2017, 11, 12⟩, hour := 12, minute := 0, second := 0 },
    commodity_name := "mBH",
    amount := { quantity := ⟨500, 2⟩,
                commodity := { name := "PLN", position := CommodityPosition.right } } }

/-! ## Spec-side reference functions -/

/-- Reference form of the accumulated comment of a metadata block, following
the spec's words: the comment texts of the lines, in order, joined with a
newline separator (`none` when no line carried a comment). -/
def joined_comments (l : List (Option String)) : Option String :=
  match l.filterMap id with
  | [] => none
  | c :: cs => some (cs.foldl (fun a b => a ++ "\n" ++ b) c)

/-- Reference form of an overriding optional directive: the value supplied by
the latest line that supplies one. -/
def last_supplied (l : List (Option α)) : Option α :=
  l.foldl pick_later none

/-- Whether the character before position `pos` is a space (the scanner's
one-character lookback; the `'x'` default is never consulted in range). -/
def prevSingleSpace (input : List Char) (pos : Nat) : Bool :=
  decide (0 < pos ∧ input.getD (pos - 1) 'x' = ' ')

/-- Position `pos` is where the scanner splits: either a hard delimiter, or
the second of two consecutive spaces. -/
def sepHit (input : List Char) (pos : Nat) : Bool :=
  isHardSep (input.getD pos 'x')
    || (decide (input.getD pos 'x' = ' ') && prevSingleSpace input pos)

/-- First separator position at index `pos` or later (`rest` is
`input.drop pos`). -/
def firstSepAux (input : List Char) : List Char → Nat → Option Nat
  | [], _ => none
  | _ :: rest, pos =>
    if sepHit input pos then some pos else firstSepAux input rest (pos + 1)

/-- Reference form of the account-name split, following the claim's words with
the corrections the code forces: at the first separator position, a hard
delimiter splits before the delimiter — excluding a single immediately
preceding space, which stays in the remainder — and fails at position `0`,
while a second consecutive space splits one position before itself (both
spaces stay in the remainder); with no separator, the whole input is consumed
only when it has at least two characters, does not end in a space, and its
final character is one UTF-8 byte wide (the scanner's end-of-text test
compares byte offsets, so it never fires on a multi-byte final character). -/
def account_split_from (input rest : List Char) (pos : Nat) :
    Option (List Char × List Char) :=
  match firstSepAux input rest pos with
  | some i =>
    if isHardSep (input.getD i 'x') then
      if i = 0 then none
      else if input.getD (i - 1) 'x' = ' ' then
        some (input.drop (i - 1), input.take (i - 1))
      else some (input.drop i, input.take i)
    else some (input.drop (i - 1), input.take (i - 1))
  | none =>
    if 2 ≤ input.length ∧ input.getD (input.length - 1) 'x' ≠ ' '
        ∧ utf8Width (input.getD (input.length - 1) 'x') = 1 then
      some ([], input)
    else none

def account_split_model (input : List Char) : Option (List Char × List Char) :=
  account_split_from input input 0

/-- Whether the text (after the optional sign) begins a quantity: a digit, or
a point followed by a digit. -/
def starts_quantity (r : List Char) : Bool :=
  match r with
  | c :: r2 => c.isDigit || (c = '.' && (r2.headD 'x').isDigit)
  | [] => false

/-- Reference acceptance condition of the quantity parser: after an optional
leading minus sign, the input starts with a digit or with a point followed by
a digit. -/
def quantity_accepts (input : List Char) : Bool :=
  starts_quantity (match input with
    | '-' :: r => r
    | r => r)

/-! ## Claim theorems -/

/-- Distributing a leading piece over the newline-join fold. -/
theorem join_fold_step (c x : String) (xs : List String) :
    xs.foldl (fun a b => a ++ "\n" ++ b) (c ++ "\n" ++ x)
      = c ++ "\n" ++ xs.foldl (fun a b => a ++ "\n" ++ b) x := by
  induction xs generalizing x with
  | nil => rfl
  | cons y ys ih =>
    simp only [List.foldl_cons]
    rw [String.append_assoc, String.append_assoc, ← ih]
    simp [String.append_assoc]

theorem reduce_join_newline_none_left (b : Option String) :
    reduce_join_newline none b = b := by
  cases b <;> rfl

theorem reduce_join_newline_assoc (a b c : Option String) :
    reduce_join_newline (reduce_join_newline a b) c
      = reduce_join_newline a (reduce_join_newline b c) := by
  cases a <;> cases b <;> cases c <;> simp [reduce_join_newline, String.append_assoc]

theorem joined_comments_cons (o : Option String) (l : List (Option String)) :
    joined_comments (o :: l) = reduce_join_newline o (joined_comments l) := by
  cases o with
  | none =>
    rw [reduce_join_newline_none_left]
    simp [joined_comments, List.filterMap_cons]
  | some c =>
    unfold joined_comments
    simp only [List.filterMap_cons, id_eq]
    cases h : l.filterMap id with
    | nil => rfl
    | cons x xs =>
      simp only [List.foldl_cons, reduce_join_newline]
      rw [join_fold_step]

theorem pick_later_none_left (b : Option α) : pick_later none b = b := by
  cases b <;> rfl

theorem pick_later_none_right (a : Option α) : pick_later a none = a := rfl

theorem pick_later_assoc (a b c : Option α) :
    pick_later (pick_later a b) c = pick_later a (pick_later b c) := by
  cases b <;> cases c <;> rfl

theorem last_supplied_cons (o : Option α) (l : List (Option α)) :
    last_supplied (o :: l) = pick_later o (last_supplied l) := by
  have key : ∀ (l : List (Option α)) (z : Option α),
      l.foldl pick_later z = pick_later z (l.foldl pick_later none) := by
    intro l
    induction l with
    | nil => intro z; rfl
    | cons x xs ih =>
      intro z
      simp only [List.foldl_cons]
      rw [ih (pick_later z x), ih (pick_later none x), pick_later_none_left,
        pick_later_assoc]
  simp only [last_supplied, List.foldl_cons]
  rw [key, pick_later_none_left]

theorem metadata_fold_comment (ms : List Metadata) (z : Metadata) :
    (ms.foldl metadata_combine z).comment
      = reduce_join_newline z.comment (joined_comments (ms.map (·.comment))) := by
  induction ms generalizing z with
  | nil =>
    simp only [List.foldl_nil, List.map_nil]
    cases z.comment <;> rfl
  | cons m ms ih =>
    simp only [List.foldl_cons, List.map_cons]
    rw [ih, joined_comments_cons, ← reduce_join_newline_assoc]
    rfl

theorem metadata_fold_date (ms : List Metadata) (z : Metadata) :
    (ms.foldl metadata_combine z).date
      = pick_later z.date (last_supplied (ms.map (·.date))) := by
  induction ms generalizing z with
  | nil => simp only [List.foldl_nil, List.map_nil]; rfl
  | cons m ms ih =>
    simp only [List.foldl_cons, List.map_cons]
    rw [ih, last_supplied_cons, ← pick_later_assoc]
    rfl

theorem metadata_fold_effective_date (ms : List Metadata) (z : Metadata) :
    (ms.foldl metadata_combine z).effective_date
      = pick_later z.effective_date (last_supplied (ms.map (·.effective_date))) := by
  induction ms generalizing z with
  | nil => simp only [List.foldl_nil, List.map_nil]; rfl
  | cons m ms ih =>
    simp only [List.foldl_cons, List.map_cons]
    rw [ih, last_supplied_cons, ← pick_later_assoc]
    rfl

theorem metadata_fold_tags (ms : List Metadata) (z : Metadata) :
    (ms.foldl metadata_combine z).tags = z.tags ++ (ms.map (·.tags)).flatten := by
  induction ms generalizing z with
  | nil => simp
  | cons m ms ih =>
    simp only [List.foldl_cons, List.map_cons, List.flatten_cons]
    rw [ih, ← List.append_assoc]
    rfl

/-- C9: a metadata comment block accumulates across its lines in order —
folding any list of per-line `Metadata` records with the block's folding step
(`metadata_combine`, exactly what `parse_metadata_comments` folds with) joins
the comments with a newline separator, concatenates the tag lists in order,
and keeps, for the date and effective-date directives, the value of the latest
line that supplies one; concrete two-line blocks behave accordingly through
`parse_metadata_comments` itself. -/
theorem C9_metadata_accumulation :
    (∀ ms : List Metadata,
      (ms.foldl metadata_combine {}).comment
          = joined_comments (ms.map (·.comment)) ∧
      (ms.foldl metadata_combine {}).date
          = last_supplied (ms.map (·.date)) ∧
      (ms.foldl metadata_combine {}).effective_date
          = last_supplied (ms.map (·.effective_date)) ∧
      (ms.foldl metadata_combine {}).tags = (ms.map (·.tags)).flatten) ∧
    parse_metadata_comments "; a\n; b\n".toList
      = some ([], { comment := some "a\nb" }) ∧
    parse_metadata_comments "; [2018-10-01]\n; [2018-10-14]\n".toList
      = some ([], { date := some ⟨2018, 10, 14⟩ }) ∧
    parse_metadata_comments "; :t1:\n; :t2:\n".toList
      = some ([], { tags := [⟨"t1", none⟩, ⟨"t2", none⟩] }) := by
  refine ⟨fun ms => ⟨?_, ?_, ?_, ?_⟩, by decide, by decide, by decide⟩
  · rw [metadata_fold_comment, reduce_join_newline_none_left]
  · rw [metadata_fold_date, pick_later_none_left]
  · rw [metadata_fold_effective_date, pick_later_none_left]
  · rw [metadata_fold_tags]; rfl

/-- C1 (counterexample): the parser enforces no elided-posting invariant.  The
input `"2018-10-01 D\n A\n B\n"`, a transaction whose two postings both lack an
amount and a balance assertion, parses successfully (to a document whose two
postings have `amount = none` and `balance = none`) instead of being rejected
with a parse error as the claim states. -/
theorem C1_two_elided_accepted :
    parse_ledger two_elided_text.toList = some ([], two_elided_ledger) ∧
    (elided_posting "A").amount = none ∧ (elided_posting "A").balance = none ∧
    (elided_posting "B").amount = none ∧ (elided_posting "B").balance = none := by
  refine ⟨?_, rfl, rfl, rfl, rfl⟩
  decide

/-- C1 (amended): parsing performs no elided-posting validation at all — a
transaction whose every posting lacks both amount and balance parses
successfully, both with two postings and with a single posting. -/
theorem C1_amended_no_elided_check :
    parse_ledger two_elided_text.toList = some ([], two_elided_ledger) ∧
    parse_ledger one_elided_text.toList = some ([], one_elided_ledger) := by
  constructor <;> decide

/-- C2 (counterexample): round-tripping is not guaranteed for every parsed
document.  The input `"2018-10-01 D\n A  \"AB C\"1.20\n"` parses successfully
(its commodity name `"AB C"` comes from a quoted symbol), but the serializer
writes the commodity without quotes, and parsing the serialized text fails
entirely instead of succeeding with an equal document. -/
theorem C2_quoted_commodity_breaks_roundtrip :
    parse_ledger quoted_commodity_text.toList = some ([], quoted_commodity_ledger) ∧
    parse_ledger (serialize_ledger default_settings quoted_commodity_ledger).toList
      = none := by
  constructor <;> decide

/-- C2 (amended): serialize-then-parse reproduces the document for the spec's
§8 scenario transaction (and documents like it); the guarantee is not
universal. -/
theorem C2_scenario_roundtrip :
    parse_ledger scenario_text.toList = some ([], scenario_ledger) ∧
    parse_ledger (serialize_ledger default_settings scenario_ledger).toList
      = some ([], scenario_ledger) := by
  constructor <;> decide

/-- C3: converting a parsed transaction with an elided posting into the
simplified model does not return an error value — the `unwrap` in
`simple/from_ast.rs` panics (modelled by `none`; the `ConvertError` type has no
variants, so no error value even exists).  A transaction whose postings all
carry amounts converts normally. -/
theorem C3_simple_conversion_panics_on_elided :
    simple_transaction_try_from elided_ast_transaction = none ∧
    simple_transaction_try_from full_ast_transaction =
      some { comment := none, date := ⟨2018, 10, 1⟩, effective_date := none,
             status := none, code := none, description := "Desc",
             postings :=
               [{ account := "A", amount := ast_amount_120, status := none,
                  comment := none },
                { account := "B", amount := ast_amount_120, status := none,
                  comment := none }] } := by
  constructor <;> decide

/-- C4 (counterexample): a serialized `CommodityPrice` item is followed by
exactly one configured line ending, not by an extra blank-line EOL: under the
default settings the output ends with a single `"\n"` and not with `"\n\n"`. -/
theorem C4_no_extra_blank_line :
    serialize_ledger_item default_settings
        (LedgerItem.commodityPrice scenario_commodity_price)
      = "P 2017-11-12 12:00:00 mBH 5.00 PLN\n" ∧
    (default_settings.eol ++ default_settings.eol).data.isSuffixOf
      (serialize_ledger_item default_settings
        (LedgerItem.commodityPrice scenario_commodity_price)).data = false := by
  constructor <;> decide

/-- C4 (amended): for every item and every serializer configuration, the
serializer writes the item's body followed by exactly one configured line
ending; a `Transaction` or `CommodityPrice` gets no additional blank-line EOL. -/
theorem C4_item_single_eol :
    ∀ (s : SerializerSettings) (item : LedgerItem),
      serialize_ledger_item s item =
        (match item with
         | LedgerItem.emptyLine => ""
         | LedgerItem.lineComment c => "; " ++ c
         | LedgerItem.transaction t => serialize_transaction s t
         | LedgerItem.commodityPrice cp => serialize_commodity_price s cp
         | LedgerItem.includeDirective f => "include " ++ f) ++ s.eol := by
  intro s item
  cases item <;> rfl

/-- C6: amount parsing tries the commodity-first alternative before the
quantity-first one (the order of `pAlt` in `parse_amount`); `"$1.20"` parses to
quantity `1.20` with commodity `"$"` at position `Left`, a leading `"-"` before
the commodity negates the quantity, `"1.20 USD"` parses to quantity `1.20` with
commodity `"USD"` at position `Right`, and serializing any amount writes
`Left` symbols immediately before the quantity with no separating space and
`Right` symbols after the quantity separated by one space. -/
theorem C6_amount_positions :
    parse_amount "$1.20".toList =
      some ([], { quantity := ⟨120, 2⟩,
                  commodity := { name := "$", position := CommodityPosition.left } }) ∧
    parse_amount "-$1.20".toList =
      some ([], { quantity := ⟨-120, 2⟩,
                  commodity := { name := "$", position := CommodityPosition.left } }) ∧
    parse_amount "1.20 USD".toList =
      some ([], { quantity := ⟨120, 2⟩,
                  commodity := { name := "USD", position := CommodityPosition.right } }) ∧
    ∀ a : Amount,
      serialize_amount a =
        match a.commodity.position with
        | CommodityPosition.left => a.commodity.name ++ decToString a.quantity
        | CommodityPosition.right => decToString a.quantity ++ " " ++ a.commodity.name := by
  refine ⟨by decide, by decide, by decide, ?_⟩
  intro a
  match a with
  | ⟨q, ⟨n, CommodityPosition.left⟩⟩ => rfl
  | ⟨q, ⟨n, CommodityPosition.right⟩⟩ => rfl

/-- C8: date and datetime parsing validates the syntactically matched fields
against real calendar rules — `"2017-13-24"` and `"2017-03-24 25:11:22"` match
the numeric syntax (`parse_date_internal`/`parse_datetime_internal` succeed)
but fail calendar validation, while the three separators `-`, `/`, `.` all
parse `2017‑03‑24` to the identical date value. -/
theorem C8_calendar_validation :
    parse_date_internal "2017-13-24".toList = some ([], (2017, 13, 24)) ∧
    fromYmdOpt 2017 13 24 = none ∧
    parse_date "2017-13-24".toList = none ∧
    parse_datetime_internal "2017-03-24 25:11:22".toList
      = some ([], ((2017, 3, 24), (25, 11, 22))) ∧
    andHmsOpt ⟨2017, 3, 24⟩ 25 11 22 = none ∧
    parse_datetime "2017-03-24 25:11:22".toList = none ∧
    parse_date "2017-03-24".toList = some ([], ⟨2017, 3, 24⟩) ∧
    parse_date "2017/03/24".toList = some ([], ⟨2017, 3, 24⟩) ∧
    parse_date "2017.03.24".toList = some ([], ⟨2017, 3, 24⟩) := by
  refine ⟨by decide, by decide, by decide, by decide, by decide, by decide,
    by decide, by decide, by decide⟩

/-- C10: parsing the empty string succeeds and yields a ledger whose item list
is empty — the top-level item loop accepts zero items and the end-of-input
check succeeds immediately. -/
theorem C10_empty_input :
    parse_ledger "".toList = some ([], { items := [] }) := by
  decide

theorem firstSepAux_cons_hit (input : List Char) (c : Char) (rest : List Char)
    (pos : Nat) (h : sepHit input pos = true) :
    firstSepAux input (c :: rest) pos = some pos := by
  simp [firstSepAux, h]

theorem firstSepAux_cons_miss (input : List Char) (c : Char) (rest : List Char)
    (pos : Nat) (h : sepHit input pos = false) :
    firstSepAux input (c :: rest) pos = firstSepAux input rest (pos + 1) := by
  simp [firstSepAux, h]

theorem account_split_from_hit (input : List Char) (c : Char) (rest : List Char)
    (pos : Nat) (h : sepHit input pos = true) :
    account_split_from input (c :: rest) pos =
      if isHardSep (input.getD pos 'x') then
        if pos = 0 then none
        else if input.getD (pos - 1) 'x' = ' ' then
          some (input.drop (pos - 1), input.take (pos - 1))
        else some (input.drop pos, input.take pos)
      else some (input.drop (pos - 1), input.take (pos - 1)) := by
  unfold account_split_from
  rw [firstSepAux_cons_hit input c rest pos h]

theorem account_split_from_miss (input : List Char) (c : Char) (rest : List Char)
    (pos : Nat) (h : sepHit input pos = false) :
    account_split_from input (c :: rest) pos = account_split_from input rest (pos + 1) := by
  unfold account_split_from
  rw [firstSepAux_cons_miss input c rest pos h]

theorem account_split_from_nil (input : List Char) (pos : Nat) :
    account_split_from input [] pos =
      if 2 ≤ input.length ∧ input.getD (input.length - 1) 'x' ≠ ' '
          ∧ utf8Width (input.getD (input.length - 1) 'x') = 1 then
        some ([], input)
      else none := rfl

theorem utf8Width_pos (c : Char) : 1 ≤ utf8Width c := by
  unfold utf8Width
  split_ifs <;> omega

theorem utf8Len_eq_zero (l : List Char) : utf8Len l = 0 ↔ l = [] := by
  cases l with
  | nil => exact ⟨fun _ => rfl, fun _ => rfl⟩
  | cons c r =>
    constructor
    · intro h
      simp only [utf8Len] at h
      exact absurd h (by have := utf8Width_pos c; omega)
    · intro h
      exact List.noConfusion h

theorem utf8Len_append (a b : List Char) :
    utf8Len (a ++ b) = utf8Len a + utf8Len b := by
  induction a with
  | nil => simp [utf8Len]
  | cons c r ih =>
    show utf8Width c + utf8Len (r ++ b) = utf8Width c + utf8Len r + utf8Len b
    rw [ih]
    omega

theorem utf8Len_take_succ (input : List Char) (pos : Nat)
    (h : pos < input.length) :
    utf8Len (input.take (pos + 1)) =
      utf8Len (input.take pos) + utf8Width input[pos] := by
  rw [List.take_succ, List.getElem?_eq_getElem h]
  rw [utf8Len_append]
  simp [utf8Len]

theorem utf8Len_take_pos (input : List Char) (pos : Nat)
    (hpos : pos < input.length) (hne : pos ≠ 0) :
    0 < utf8Len (input.take pos) := by
  cases input with
  | nil => simp at hpos
  | cons a l =>
    cases pos with
    | zero => exact absurd rfl hne
    | succ n =>
      have hstep : utf8Len ((a :: l).take (n + 1))
          = utf8Width a + utf8Len (l.take n) := rfl
      rw [hstep]
      have := utf8Width_pos a
      omega

theorem tuhsGo_eq_split_from (input : List Char) :
    ∀ (rest : List Char) (pos bpos : Nat) (ss : Bool),
      rest = input.drop pos →
      pos ≤ input.length →
      bpos = utf8Len (input.take pos) →
      ss = prevSingleSpace input pos →
      (pos = input.length →
        input.length < 2 ∨ input.getD (input.length - 1) 'x' = ' ' ∨
          utf8Width (input.getD (input.length - 1) 'x') ≠ 1) →
      tuhsGo input (utf8Len input) rest pos bpos ss
        = account_split_from input rest pos := by
  intro rest
  induction rest with
  | nil =>
    intro pos bpos ss hdrop hle hb hss hreach
    have hlen : input.length ≤ pos := List.drop_eq_nil_iff.mp hdrop.symm
    have hpos : pos = input.length := le_antisymm hle hlen
    have hcond : ¬ (2 ≤ input.length ∧ input.getD (input.length - 1) 'x' ≠ ' '
        ∧ utf8Width (input.getD (input.length - 1) 'x') = 1) := by
      rcases hreach hpos with h | h | h
      · rintro ⟨h2, -, -⟩; omega
      · rintro ⟨-, h2, -⟩; exact h2 h
      · rintro ⟨-, -, h2⟩; exact h h2
    rw [account_split_from_nil, if_neg hcond]
    rfl
  | cons c rest2 ih =>
    intro pos bpos ss hdrop hle hb hss hreach
    have hpos : pos < input.length := by
      by_contra h
      have hnil : input.drop pos = [] := List.drop_eq_nil_iff.mpr (by omega)
      rw [hnil] at hdrop
      exact List.noConfusion hdrop
    have hstep : input.drop pos = input[pos] :: input.drop (pos + 1) :=
      List.drop_eq_getElem_cons hpos
    rw [hstep] at hdrop
    have hc : input[pos] = c := (List.cons.injEq _ _ _ _ |>.mp hdrop.symm).1
    have hrest2 : rest2 = input.drop (pos + 1) :=
      (List.cons.injEq _ _ _ _ |>.mp hdrop.symm).2.symm
    have hgetD : input.getD pos 'x' = c := by
      rw [List.getD_eq_getElem _ _ hpos, hc]
    have hbpos0 : bpos = 0 ↔ pos = 0 := by
      constructor
      · intro h0
        by_contra hne
        have := utf8Len_take_pos input pos hpos hne
        omega
      · intro h0
        rw [hb, h0]
        rfl
    have hlensum : utf8Len input = bpos + (utf8Width c + utf8Len rest2) := by
      conv_lhs => rw [← List.take_append_drop pos input]
      rw [utf8Len_append, hstep, hc, ← hrest2, ← hb]
      rfl
    by_cases hH : isHardSep c = true
    · -- a hard delimiter at pos
      have hsep : sepHit input pos = true := by
        unfold sepHit
        rw [hgetD, hH]
        rfl
      rw [account_split_from_hit input c rest2 pos hsep, hgetD]
      simp only [tuhsGo]
      rw [if_pos hH, if_pos hH]
      by_cases hp0 : pos = 0
      · have hb0 : bpos = 0 := hbpos0.mpr hp0
        rw [hb0, if_neg (by omega : ¬ (0:Nat) < 0), if_pos hp0]
      · have h0 : 0 < pos := Nat.pos_of_ne_zero hp0
        have hb0 : 0 < bpos := by
          rcases Nat.eq_zero_or_pos bpos with h | h
          · exact absurd (hbpos0.mp h) hp0
          · exact h
        rw [if_pos hb0, if_neg hp0]
        by_cases hprev : input.getD (pos - 1) 'x' = ' '
        · have hssv : ss = true := by
            rw [hss]
            unfold prevSingleSpace
            rw [hprev]
            simp [h0]
          rw [if_pos hssv, if_pos hprev]
        · have hssv : ¬ ss = true := by
            rw [hss]
            unfold prevSingleSpace
            simp only [decide_eq_true_eq, not_and]
            exact fun _ => hprev
          rw [if_neg hssv, if_neg hprev]
    · -- not a hard delimiter
      by_cases hSp : c = ' '
      · by_cases hprev : prevSingleSpace input pos = true
        · -- second consecutive space: split one position back
          have hsep : sepHit input pos = true := by
            unfold sepHit
            rw [hgetD, hprev]
            simp [hSp]
          have hssv : ss = true := by rw [hss, hprev]
          have hp0 : 0 < pos := by
            have := of_decide_eq_true hprev
            exact this.1
          rw [account_split_from_hit input c rest2 pos hsep, hgetD]
          simp only [tuhsGo]
          rw [if_neg hH, if_pos hSp, if_pos hssv, if_neg hH]
        · -- a first single space: keep scanning
          have hsep : sepHit input pos = false := by
            unfold sepHit
            rw [hgetD]
            simp [hH, hprev]
          have hssv : ¬ ss = true := by rw [hss]; exact hprev
          rw [account_split_from_miss input c rest2 pos hsep]
          simp only [tuhsGo]
          rw [if_neg hH, if_pos hSp, if_neg hssv]
          exact ih (pos + 1) (bpos + utf8Width c) true hrest2 (by omega)
            (by rw [utf8Len_take_succ input pos hpos, hc, hb])
            (by
              unfold prevSingleSpace
              rw [Nat.add_sub_cancel, hgetD, hSp]
              simp)
            (by
              intro hl
              right; left
              have hEq : input.length - 1 = pos := by omega
              rw [hEq, hgetD, hSp])
      · -- an ordinary character
        have hsep : sepHit input pos = false := by
          unfold sepHit
          rw [hgetD]
          simp [hH, hSp]
        rw [account_split_from_miss input c rest2 pos hsep]
        simp only [tuhsGo]
        rw [if_neg hH, if_neg hSp]
        by_cases hend : bpos = utf8Len input - 1 ∧ 0 < bpos
        · -- the last byte of the input: consume everything
          have hwpos := utf8Width_pos c
          have hwc1 : utf8Width c = 1 := by omega
          have hr0 : utf8Len rest2 = 0 := by omega
          have hrest2nil : rest2 = [] := (utf8Len_eq_zero rest2).mp hr0
          have hdropnil : input.drop (pos + 1) = [] := hrest2 ▸ hrest2nil
          have hlen1 : input.length ≤ pos + 1 := List.drop_eq_nil_iff.mp hdropnil
          have hp0 : 0 < pos := by
            rcases Nat.eq_zero_or_pos pos with h | h
            · exact absurd (hbpos0.mpr h) (by omega)
            · exact h
          have hcond : 2 ≤ input.length ∧ input.getD (input.length - 1) 'x' ≠ ' '
              ∧ utf8Width (input.getD (input.length - 1) 'x') = 1 := by
            have hEq : input.length - 1 = pos := by omega
            rw [hEq, hgetD]
            exact ⟨by omega, hSp, hwc1⟩
          rw [if_pos hend, hrest2nil, account_split_from_nil, if_pos hcond]
        · -- keep scanning
          rw [if_neg hend]
          exact ih (pos + 1) (bpos + utf8Width c) false hrest2 (by omega)
            (by rw [utf8Len_take_succ input pos hpos, hc, hb])
            (by
              unfold prevSingleSpace
              rw [Nat.add_sub_cancel, hgetD]
              simp [hSp])
            (by
              intro hl
              have hdropnil : input.drop (pos + 1) = [] :=
                List.drop_eq_nil_iff.mpr (by omega)
              have hr0 : utf8Len rest2 = 0 := by
                rw [hrest2, hdropnil]
                rfl
              have hEq : input.length - 1 = pos := by omega
              rw [hEq, hgetD]
              rcases not_and_or.mp hend with hA | hB
              · right; right
                intro hw
                exact hA (by omega)
              · left
                have hb0 : bpos = 0 := by omega
                have := hbpos0.mp hb0
                omega)

/-- C5 (counterexample): the account-name scanner does not return "the prefix
ending at the delimiter" on a hard delimiter, and does not always consume to
end-of-text when no separator occurs.  On `"AB \tX"` the single space before
the tab is excluded from the name (the scanner returns `"AB"` with `" \tX"`
remaining, not `"AB "`), and on `"A"` and `"AB "` the scanner fails
(`Err(Incomplete)`) instead of returning the whole input. -/
theorem C5_scanner_counterexample :
    take_until_hard_separator "AB \tX".toList
      = some (" \tX".toList, "AB".toList) ∧
    take_until_hard_separator "AB \tX".toList
      ≠ some ("\tX".toList, "AB ".toList) ∧
    take_until_hard_separator "A".toList = none ∧
    take_until_hard_separator "AB ".toList = none := by
  refine ⟨by decide, by decide, by decide, by decide⟩

/-- C5 (amended): for every input the scanner splits at the first position
that is a hard delimiter or the second of two consecutive spaces: a hard
delimiter splits before itself, additionally excluding a single immediately
preceding space (which stays in the remainder), and fails at position `0`; a
second consecutive space splits one position before itself with both spaces in
the remainder; with no separator the whole input is consumed only when the
input has at least two characters, does not end in a space, and ends in a
character one UTF-8 byte wide — the end-of-text test compares the byte offset
of the current character against the byte length of the input, so it never
fires on a multi-byte final character — and the scanner fails otherwise
(`account_split_model` states exactly this split; concretely, the scanner
fails on the euro-terminated "A€" but consumes "ABC" whole). -/
theorem C5_amended_scanner_split :
    (∀ input : List Char,
      take_until_hard_separator input = account_split_model input) ∧
    take_until_hard_separator "A€".toList = none ∧
    take_until_hard_separator "ABC".toList = some ([], "ABC".toList) := by
  refine ⟨?_, by decide, by decide⟩
  intro input
  unfold take_until_hard_separator account_split_model
  exact tuhsGo_eq_split_from input input 0 0 false (List.drop_zero input).symm
    (by omega) rfl
    (by unfold prevSingleSpace; simp)
    (fun h => Or.inl (by omega))

theorem takeWhile_append_stop (p : Char → Bool) (ds : List Char) (x : Char)
    (rest : List Char) (hds : ∀ c ∈ ds, p c = true) (hx : p x = false) :
    (ds ++ x :: rest).takeWhile p = ds := by
  induction ds with
  | nil => simp [List.takeWhile, hx]
  | cons d ds ih =>
    have hd : p d = true := hds d (by simp)
    simp only [List.cons_append, List.takeWhile_cons, hd, if_true]
    rw [ih (fun c hc => hds c (by simp [hc]))]

theorem digit_ne_minus (c : Char) (h : c.isDigit = true) : c ≠ '-' := by
  intro heq
  subst heq
  simp [Char.isDigit] at h

theorem decFromStr_core_nil (neg : Bool) : decFromStrCore neg [] = none := rfl

theorem decFromStr_core_digits (neg : Bool) (ds : List Char) (hne : ds ≠ [])
    (hds : ∀ c ∈ ds, c.isDigit = true) :
    (decFromStrCore neg ds).isSome = true := by
  unfold decFromStrCore
  rw [List.takeWhile_eq_self_iff.mpr hds]
  simp [List.drop_length, decMk, hne]

theorem decFromStr_core_fraction (neg : Bool) (ds t : List Char)
    (hds : ∀ c ∈ ds, c.isDigit = true) (htne : t ≠ [])
    (ht : ∀ c ∈ t, c.isDigit = true) :
    (decFromStrCore neg (ds ++ '.' :: t)).isSome = true := by
  unfold decFromStrCore
  rw [takeWhile_append_stop Char.isDigit ds '.' t hds (by decide)]
  rw [List.drop_left ds ('.' :: t)]
  simp only []
  rw [List.takeWhile_eq_self_iff.mpr ht]
  simp [List.drop_length, decMk, htne]

theorem decFromStr_cons_minus (r : List Char) :
    decFromStr ('-' :: r) = decFromStrCore true r := rfl

theorem decFromStr_no_minus (s : List Char) (h : s.headD 'x' ≠ '-') :
    decFromStr s = decFromStrCore false s := by
  cases s with
  | nil => rfl
  | cons c r =>
    unfold decFromStr
    split
    · rename_i r2 heq
      have hc : c = '-' := (List.cons.injEq _ _ _ _ |>.mp heq).1
      exact absurd hc h
    · rfl

theorem sign_opt_cons_minus (t : List Char) :
    pOpt (pTag ['-']) ('-' :: t) = some (t, some ['-']) := by
  simp [pOpt, pTag, List.isPrefixOf]

theorem sign_opt_no_minus (s : List Char) (h : s.headD 'x' ≠ '-') :
    pOpt (pTag ['-']) s = some (s, none) := by
  cases s with
  | nil => rfl
  | cons c r =>
    have hc : ¬ ('-' == c) = true := by
      simp only [beq_iff_eq]
      intro heq
      exact h heq.symm
    simp [pOpt, pTag, List.isPrefixOf, hc]

theorem quantity_accepts_cons_minus (t : List Char) :
    quantity_accepts ('-' :: t) = starts_quantity t := rfl

theorem quantity_accepts_no_minus (s : List Char) (h : s.headD 'x' ≠ '-') :
    quantity_accepts s = starts_quantity s := by
  cases s with
  | nil => rfl
  | cons c r =>
    unfold quantity_accepts
    split
    · rename_i r2 heq
      have hc : c = '-' := (List.cons.injEq _ _ _ _ |>.mp heq).1
      exact absurd hc h
    · rfl

theorem pTakeWhileMN_spec (m n : Nat) (inp r t : List Char)
    (h : pTakeWhileMN m n Char.isDigit inp = some (r, t)) :
    m ≤ t.length ∧ ∀ c ∈ t, c.isDigit = true := by
  unfold pTakeWhileMN at h
  split at h
  · exact absurd h (by simp)
  · rename_i hlen
    obtain ⟨-, ht⟩ := Prod.mk.injEq _ _ _ _ |>.mp (Option.some.injEq _ _ |>.mp h)
    subst ht
    refine ⟨by omega, fun c hc => ?_⟩
    exact List.mem_takeWhile_imp (List.take_subset _ _ hc)

theorem option_pair_eq {α : Type} {r1 r2 : List Char} {a1 a2 : α}
    (h : (some (r1, a1) : Option (List Char × α)) = some (r2, a2)) :
    r1 = r2 ∧ a1 = a2 :=
  Prod.mk.injEq _ _ _ _ |>.mp (Option.some.injEq _ _ |>.mp h)

theorem pManyAux_forall {α : Type} {p : P α} {Q : α → Prop}
    (hp : ∀ inp r a, p inp = some (r, a) → Q a) :
    ∀ (fuel : Nat) (inp r : List Char) (as_ : List α),
      pManyAux p fuel inp = some (r, as_) → ∀ a ∈ as_, Q a := by
  intro fuel
  induction fuel with
  | zero =>
    intro inp r as_ h
    exact absurd h (by simp [pManyAux])
  | succ n ih =>
    intro inp r as_ h
    unfold pManyAux at h
    split at h
    · obtain ⟨-, h2⟩ := option_pair_eq h
      subst h2
      intro a ha
      exact absurd ha (List.not_mem_nil a)
    · rename_i r1 a hp1
      split at h
      · exact absurd h (by simp)
      · split at h
        · rename_i v2 r2 as2 h2
          obtain ⟨-, h3⟩ := option_pair_eq h
          subst h3
          intro b hb
          rcases List.mem_cons.mp hb with hb | hb
          · subst hb; exact hp inp r1 b hp1
          · exact ih r1 r2 as2 h2 b hb
        · exact absurd h (by simp)

theorem pMany1_forall {α : Type} {p : P α} {Q : α → Prop}
    (hp : ∀ inp r a, p inp = some (r, a) → Q a)
    (inp r : List Char) (as_ : List α)
    (h : pMany1 p inp = some (r, as_)) : ∀ a ∈ as_, Q a := by
  unfold pMany1 at h
  split at h
  · exact absurd h (by simp)
  · rename_i r1 a hp1
    split at h
    · rename_i v2 r2 as2 h2
      obtain ⟨-, h3⟩ := option_pair_eq h
      subst h3
      intro b hb
      rcases List.mem_cons.mp hb with hb | hb
      · subst hb; exact hp inp r1 b hp1
      · exact pManyAux_forall hp (r1.length + 1) r1 r2 as2 h2 b hb
    · exact absurd h (by simp)

theorem quantity_grouped_digits (r r1 ds : List Char)
    (h : quantity_grouped r = some (r1, ds)) :
    ds ≠ [] ∧ ∀ c ∈ ds, c.isDigit = true := by
  unfold quantity_grouped pMap pPair at h
  split at h
  · rename_i v1 ra lead h1
    obtain ⟨hra, hds⟩ := option_pair_eq h
    split at h1
    · rename_i v2 rb leadDigits h2
      split at h1
      · rename_i v3 rc groups h3
        obtain ⟨-, hlead⟩ := option_pair_eq h1
        obtain ⟨hlen, hleadD⟩ := pTakeWhileMN_spec 1 3 r rb leadDigits h2
        have hgroups : ∀ g ∈ groups, ∀ c ∈ g, c.isDigit = true := by
          refine pMany1_forall ?_ rb rc groups h3
          intro inp r2 g hg
          unfold pPreceded pMap pPair at hg
          split at hg
          · rename_i vc rd cc hc
            obtain ⟨-, hgv⟩ := option_pair_eq hg
            split at hc
            · rename_i vd re c2 hchar
              split at hc
              · rename_i ve rf td h879
                obtain ⟨-, hcc⟩ := option_pair_eq hc
                rw [← hgv, ← hcc]
                exact (pTakeWhileMN_spec 3 3 re rf td h879).2
              · exact absurd hc (by simp)
            · exact absurd hc (by simp)
          · exact absurd hg (by simp)
        subst hlead
        subst hds
        constructor
        · intro hemp
          have hl0 : leadDigits = [] := (List.append_eq_nil.mp hemp).1
          rw [hl0] at hlen
          simp at hlen
        · intro c hc
          rcases List.mem_append.mp hc with hc | hc
          · exact hleadD c hc
          · obtain ⟨g, hg, hcg⟩ := List.mem_flatten.mp hc
            exact hgroups g hg c hcg
      · exact absurd h1 (by simp)
    · exact absurd h1 (by simp)
  · exact absurd h (by simp)

theorem quantity_grouped_nonDigit (r : List Char)
    (h : (r.headD 'x').isDigit = false) : quantity_grouped r = none := by
  have htw : r.takeWhile Char.isDigit = [] := by
    cases r with
    | nil => rfl
    | cons c t =>
      simp only [List.headD_cons] at h
      simp [List.takeWhile_cons, h]
  unfold quantity_grouped pMap pPair pTakeWhileMN
  rw [htw]
  simp

theorem pDigit0_eval (r : List Char) :
    pDigit0 r = some (r.drop (r.takeWhile Char.isDigit).length,
      r.takeWhile Char.isDigit) := rfl

theorem quantity_fraction_eval (rr : List Char)
    (h : (rr.headD 'x').isDigit = true) :
    quantity_fraction ('.' :: rr)
      = some (rr.drop (rr.takeWhile Char.isDigit).length,
          '.' :: rr.takeWhile Char.isDigit) := by
  have hne : rr.takeWhile Char.isDigit ≠ [] := by
    cases rr with
    | nil => simp at h
    | cons d t =>
      simp only [List.headD_cons] at h
      simp [List.takeWhile_cons, h]
  have hle : (rr.takeWhile Char.isDigit).length ≤ rr.length :=
    (List.takeWhile_prefix Char.isDigit).length_le
  have htake : rr.take (rr.takeWhile Char.isDigit).length = rr.takeWhile Char.isDigit :=
    (List.prefix_iff_eq_take.mp (List.takeWhile_prefix _)).symm
  unfold quantity_fraction pRecognize pPreceded pMap pPair pChar pDigit1 pTakeWhile1
  simp only [eq_self_iff_true, if_true, List.isEmpty_iff]
  rw [if_neg hne]
  simp only [List.length_cons, List.length_drop]
  rw [show rr.length + 1 - (rr.length - (rr.takeWhile Char.isDigit).length)
      = (rr.takeWhile Char.isDigit).length + 1 by omega]
  rw [List.take_succ_cons, htake]

theorem quantity_fraction_none (r : List Char)
    (h : (match r with
          | '.' :: d :: _ => d.isDigit
          | _ => false) = false) :
    quantity_fraction r = none := by
  cases r with
  | nil => rfl
  | cons c t =>
    by_cases hc : c = '.'
    · subst hc
      cases t with
      | nil => rfl
      | cons d t2 =>
        simp only at h
        unfold quantity_fraction pRecognize pPreceded pMap pPair pChar pDigit1
          pTakeWhile1
        simp [List.takeWhile_cons, h]
    · unfold quantity_fraction pRecognize pPreceded pMap pPair pChar
      simp [hc]
theorem quantity_fraction_shape (r r2 : List Char) (fr : List Char)
    (h : quantity_fraction r = some (r2, fr)) :
    ∃ t, fr = '.' :: t ∧ t ≠ [] ∧ ∀ c ∈ t, c.isDigit = true := by
  cases r with
  | nil =>
    exact absurd h (by simp [quantity_fraction, pRecognize, pPreceded, pMap,
      pPair, pChar])
  | cons c t =>
    by_cases hc : c = '.'
    · subst hc
      by_cases hd : (t.headD 'x').isDigit = true
      · rw [quantity_fraction_eval t hd] at h
        obtain ⟨-, hfr⟩ := option_pair_eq h
        refine ⟨t.takeWhile Char.isDigit, hfr.symm, ?_, ?_⟩
        · cases t with
          | nil => simp at hd
          | cons d t2 =>
            simp only [List.headD_cons] at hd
            simp [List.takeWhile_cons, hd]
        · exact fun c hc => List.mem_takeWhile_imp hc
      · have hnone : quantity_fraction ('.' :: t) = none := by
          apply quantity_fraction_none
          cases t with
          | nil => rfl
          | cons d t2 =>
            simp only [List.headD_cons] at hd
            simpa using hd
        rw [hnone] at h
        exact absurd h (by simp)
    · have hnone : quantity_fraction (c :: t) = none := by
        unfold quantity_fraction pRecognize pPreceded pMap pPair pChar
        simp [hc]
      rw [hnone] at h
      exact absurd h (by simp)

theorem parse_quantity_eval (inp r : List Char) (sgn : Option (List Char))
    (hs : pOpt (pTag ['-']) inp = some (r, sgn))
    (r2 ds : List Char)
    (halt : pAlt quantity_grouped pDigit0 r = some (r2, ds))
    (r3 : List Char) (fr : Option (List Char))
    (hfr : pOpt quantity_fraction r2 = some (r3, fr)) :
    parse_quantity inp =
      (decFromStr (sgn.getD [] ++ ds ++ fr.getD [])).map (fun d => (r3, d)) := by
  unfold parse_quantity pMapOpt pMap pPair
  simp only [hs, halt, hfr]
  cases decFromStr (sgn.getD [] ++ ds ++ fr.getD []) <;> rfl

theorem isSome_remap (o : Option Decimal) (r3 : List Char) :
    (o.map (fun d => (r3, d))).isSome = o.isSome := by
  cases o <;> rfl

theorem starts_true_of_digit (r : List Char) (h : (r.headD 'x').isDigit = true) :
    starts_quantity r = true := by
  cases r with
  | nil => exact absurd h (by decide)
  | cons c t =>
    simp only [List.headD_cons] at h
    simp [starts_quantity, h]

theorem quantity_fraction_starts (r r3 : List Char) (frv : List Char)
    (h : quantity_fraction r = some (r3, frv)) :
    r.headD 'x' = '.' ∧ ((r.tail).headD 'x').isDigit = true := by
  cases r with
  | nil =>
    exact absurd h (by simp [quantity_fraction, pRecognize, pPreceded, pMap,
      pPair, pChar])
  | cons c t =>
    by_cases hc : c = '.'
    · subst hc
      by_cases hd : (t.headD 'x').isDigit = true
      · exact ⟨rfl, hd⟩
      · have hnone : quantity_fraction ('.' :: t) = none := by
          apply quantity_fraction_none
          cases t with
          | nil => rfl
          | cons d t2 =>
            simp only [List.headD_cons] at hd
            simpa using hd
        rw [hnone] at h
        exact absurd h (by simp)
    · have hnone : quantity_fraction (c :: t) = none := by
        unfold quantity_fraction pRecognize pPreceded pMap pPair pChar
        simp [hc]
      rw [hnone] at h
      exact absurd h (by simp)

theorem quantity_core_spec (r : List Char) :
    ∃ r2 ds r3 fr,
      pAlt quantity_grouped pDigit0 r = some (r2, ds) ∧
      pOpt quantity_fraction r2 = some (r3, fr) ∧
      (∀ neg : Bool,
        (decFromStrCore neg (ds ++ fr.getD [])).isSome = starts_quantity r) ∧
      (ds ++ fr.getD []).headD 'x' ≠ '-' := by
  by_cases hstart : (r.headD 'x').isDigit = true
  · -- the input begins with a digit: the integral digit run is nonempty
    have halt : ∃ r2 ds, pAlt quantity_grouped pDigit0 r = some (r2, ds) ∧
        ds ≠ [] ∧ ∀ c ∈ ds, c.isDigit = true := by
      cases hg : quantity_grouped r with
      | some v =>
        obtain ⟨rg, dsg⟩ := v
        obtain ⟨hne2, hdig2⟩ := quantity_grouped_digits r rg dsg hg
        refine ⟨rg, dsg, ?_, hne2, hdig2⟩
        unfold pAlt
        rw [hg]
      | none =>
        refine ⟨r.drop (r.takeWhile Char.isDigit).length, r.takeWhile Char.isDigit,
          ?_, ?_, fun c hc => List.mem_takeWhile_imp hc⟩
        · unfold pAlt
          rw [hg, pDigit0_eval]
        · cases r with
          | nil => exact absurd hstart (by decide)
          | cons c t =>
            simp only [List.headD_cons] at hstart
            simp [List.takeWhile_cons, hstart]
    obtain ⟨r2, ds, halt, hne, hdig⟩ := halt
    have hdhead : ∀ tail : List Char, (ds ++ tail).headD 'x' ≠ '-' := by
      intro tail
      cases ds with
      | nil => exact absurd rfl hne
      | cons d ds2 =>
        simp only [List.cons_append, List.headD_cons]
        exact digit_ne_minus d (hdig d (by simp))
    cases hf : quantity_fraction r2 with
    | none =>
      refine ⟨r2, ds, r2, none, halt, by unfold pOpt; rw [hf], ?_, hdhead []⟩
      intro neg
      rw [show ds ++ (none : Option (List Char)).getD [] = ds by simp]
      rw [decFromStr_core_digits neg ds hne hdig]
      exact (starts_true_of_digit r hstart).symm
    | some v =>
      obtain ⟨r3, frv⟩ := v
      obtain ⟨tt, hfrv, httne, httdig⟩ := quantity_fraction_shape r2 r3 frv hf
      refine ⟨r2, ds, r3, some frv, halt, by unfold pOpt; rw [hf], ?_, hdhead frv⟩
      intro neg
      rw [show (some frv).getD [] = frv from rfl, hfrv]
      rw [decFromStr_core_fraction neg ds tt hdig httne httdig]
      exact (starts_true_of_digit r hstart).symm
  · -- the input does not begin with a digit: the integral digit run is empty
    have hstart2 : (r.headD 'x').isDigit = false := by
      revert hstart
      cases (r.headD 'x').isDigit <;> simp
    have hg : quantity_grouped r = none := quantity_grouped_nonDigit r hstart2
    have htw : r.takeWhile Char.isDigit = [] := by
      cases r with
      | nil => rfl
      | cons c t =>
        simp only [List.headD_cons] at hstart2
        simp [List.takeWhile_cons, hstart2]
    have halt : pAlt quantity_grouped pDigit0 r = some (r, []) := by
      unfold pAlt
      rw [hg, pDigit0_eval, htw]
      simp
    cases hf : quantity_fraction r with
    | none =>
      refine ⟨r, [], r, none, halt, by unfold pOpt; rw [hf], ?_, by decide⟩
      intro neg
      rw [show ([] : List Char) ++ (none : Option (List Char)).getD [] = [] by simp]
      rw [decFromStr_core_nil]
      -- the input starts no quantity either
      cases r with
      | nil => rfl
      | cons c t =>
        by_cases hdot : c = '.' ∧ (t.headD 'x').isDigit = true
        · rw [hdot.1, quantity_fraction_eval t hdot.2] at hf
          exact absurd hf (by simp)
        · simp only [List.headD_cons] at hstart2
          simp only [starts_quantity, hstart2, Bool.false_or]
          rcases Decidable.em (c = '.') with hcd | hcd
          · have hnd : (t.headD 'x').isDigit = false := by
              rcases Decidable.em ((t.headD 'x').isDigit = true) with h2 | h2
              · exact absurd ⟨hcd, h2⟩ hdot
              · revert h2; cases (t.headD 'x').isDigit <;> simp
            rw [hcd]
            simp only [← List.headD_eq_head?_getD, hnd]
            simp
          · simp [hcd]
    | some v =>
      obtain ⟨r3, frv⟩ := v
      obtain ⟨tt, hfrv, httne, httdig⟩ := quantity_fraction_shape r r3 frv hf
      obtain ⟨hdot, hdig2⟩ := quantity_fraction_starts r r3 frv hf
      refine ⟨r, [], r3, some frv, halt, by unfold pOpt; rw [hf], ?_, ?_⟩
      · intro neg
        rw [show ([] : List Char) ++ (some frv).getD [] = frv by simp, hfrv]
        have hcf := decFromStr_core_fraction neg [] tt (by simp) httne httdig
        rw [show ([] : List Char) ++ '.' :: tt = '.' :: tt by simp] at hcf
        rw [hcf]
        cases r with
        | nil => exact absurd hdot (by decide)
        | cons c t =>
          simp only [List.headD_cons] at hdot
          simp only [List.tail_cons] at hdig2
          simp [starts_quantity, hdot]
          rw [← List.headD_eq_head?_getD]
          exact hdig2
      · rw [show ([] : List Char) ++ (some frv).getD [] = frv by simp, hfrv]
        simp only [List.headD_cons]
        decide

theorem parse_quantity_isSome_eq (input : List Char) :
    (parse_quantity input).isSome = quantity_accepts input := by
  by_cases hm : input.headD 'x' = '-'
  · obtain ⟨t, rfl⟩ : ∃ t, input = '-' :: t := by
      cases input with
      | nil => exact absurd hm (by decide)
      | cons c t =>
        simp only [List.headD_cons] at hm
        exact ⟨t, by rw [hm]⟩
    obtain ⟨r2, ds, r3, fr, halt, hfr, hcore, hhead⟩ := quantity_core_spec t
    rw [parse_quantity_eval ('-' :: t) t (some ['-']) (sign_opt_cons_minus t)
      r2 ds halt r3 fr hfr]
    rw [isSome_remap, quantity_accepts_cons_minus]
    rw [show (some ['-']).getD [] ++ ds ++ fr.getD []
        = '-' :: (ds ++ fr.getD []) by simp]
    rw [decFromStr_cons_minus]
    exact hcore true
  · obtain ⟨r2, ds, r3, fr, halt, hfr, hcore, hhead⟩ := quantity_core_spec input
    rw [parse_quantity_eval input input none (sign_opt_no_minus input hm)
      r2 ds halt r3 fr hfr]
    rw [isSome_remap, quantity_accepts_no_minus input hm]
    rw [show (none : Option (List Char)).getD [] ++ ds ++ fr.getD []
        = ds ++ fr.getD [] by simp]
    rw [decFromStr_no_minus _ hhead]
    exact hcore false

/-- C7 (counterexample): the plain alternative of the quantity grammar accepts
an empty digit run before the fraction — `".5"`, which starts with neither a
digit nor a sign, parses successfully to `0.5` (`digit0` matches the empty
run and `Decimal::from_str(".5")` succeeds), while the claim's "bare run of
one or more digits" would reject it. -/
theorem C7_leading_dot_accepted :
    parse_quantity ".5".toList = some ([], ⟨5, 1⟩) ∧
    ('.' : Char).isDigit = false := by
  constructor <;> decide

/-- C7 (amended): a decimal quantity parses exactly when, after an optional
leading `-`, the input starts with a digit or with `.` followed by a digit
(`quantity_accepts`); the matched shape is the optional sign, then the
thousands-grouped alternative (one to three digits followed by one or more
comma-preceded groups of exactly three digits) tried before the possibly-empty
bare digit run, then an optional `.` with one or more digits, the grouping
commas being dropped from the value.  Concretely, `1,234,567.89` parses to
`123456789·10⁻²`, `-12.13` to `-1213·10⁻²`, `1,000` parses through the grouped
alternative to `1000` consuming everything, `1234,567` falls back to the plain
run (`1234`, leaving `,567`), and `abc` and a lone `-` fail. -/
theorem C7_amended_quantity_grammar :
    (∀ input : List Char,
      (parse_quantity input).isSome = quantity_accepts input) ∧
    parse_quantity "1,234,567.89".toList = some ([], ⟨123456789, 2⟩) ∧
    parse_quantity "-12.13".toList = some ([], ⟨-1213, 2⟩) ∧
    parse_quantity "1,000".toList = some ([], ⟨1000, 0⟩) ∧
    parse_quantity "1234,567".toList = some (",567".toList, ⟨1234, 0⟩) ∧
    parse_quantity "abc".toList = none ∧
    parse_quantity "-".toList = none := by
  refine ⟨parse_quantity_isSome_eq, by decide, by decide, by decide, by decide,
    by decide, by decide⟩

end LedgerSpec
